import Mathlib

/-!
A shallow embedding of the MasterGrader plagiarism-detection pipeline:
`config.py`, `tokenizer.py`, `plagiarism_detector.py` and `file_mapper.py`.

Python strings are modelled as `List Char`, Python floats as `ℚ`, Python
dicts as insertion-ordered association lists.  The standard-library
`difflib.SequenceMatcher` (constructed with `isjunk = None`, as the
detector does) is modelled faithfully, including the autojunk pruning of
popular elements and the junk-free extension loops of
`find_longest_match`.
-/

/-- Python `str` is modelled as a list of characters. -/
abbrev Str := List Char

/-- Convert a Lean string literal to the model representation. -/
def chars (s : String) : Str := s.toList

/-- Python `\w` over ASCII: letters, digits and underscore. -/
def wordCh (c : Char) : Bool :=
  (decide ('a' ≤ c) && decide (c ≤ 'z')) || (decide ('A' ≤ c) && decide (c ≤ 'Z')) ||
    (decide ('0' ≤ c) && decide (c ≤ '9')) || c == '_'

/-- ASCII decimal digit. -/
def isDigitCh (c : Char) : Bool := decide ('0' ≤ c) && decide (c ≤ '9')

/-- Python `str.isspace` / `\s` over ASCII. -/
def isSpaceCh (c : Char) : Bool :=
  c == ' ' || c == '\t' || c == '\n' || c == '\r' || c == '\x0b' || c == '\x0c'

/-- ASCII lower-casing, as `str.lower` acts on the identifiers involved. -/
def toLowerCh (c : Char) : Char :=
  if 'A' ≤ c ∧ c ≤ 'Z' then Char.ofNat (c.toNat + 32) else c

/-- ASCII upper-casing, as `str.upper` acts on the identifiers involved. -/
def toUpperCh (c : Char) : Char :=
  if 'a' ≤ c ∧ c ≤ 'z' then Char.ofNat (c.toNat - 32) else c

def lowerStr (s : Str) : Str := s.map toLowerCh

def upperStr (s : Str) : Str := s.map toUpperCh

/-- Python string `<` (lexicographic on code points). -/
def lexLt : Str → Str → Bool
  | [], [] => false
  | [], _ :: _ => true
  | _ :: _, [] => false
  | a :: as, b :: bs => if a < b then true else if b < a then false else lexLt as bs

/-- Python string `<=`. -/
def lexLe (x y : Str) : Bool := !(lexLt y x)

/-! ## config.py -/

/-- `Config.NUM_QUESTIONS` (config.py line 141). -/
def NUM_QUESTIONS : Nat := 6

/-- `Config.SIMILARITY_THRESHOLD` (config.py line 142). -/
def SIMILARITY_THRESHOLD : ℚ := 95

/-- `Config.MIN_TOKEN_COUNT` (config.py line 143). -/
def MIN_TOKEN_COUNT : Nat := 50

/-- `Config.ACCEPTED_EXTENSIONS` (config.py line 148). -/
def ACCEPTED_EXTENSIONS : List Str := [chars ".c", chars ".cpp", chars ".h"]

/-- `Config.C_KEYWORDS` (config.py lines 192-197); membership is all that
is ever used of the Python set. -/
def C_KEYWORDS : List Str :=
  [chars "auto", chars "break", chars "case", chars "char", chars "const",
   chars "continue", chars "default", chars "do", chars "double", chars "else",
   chars "enum", chars "extern", chars "float", chars "for", chars "goto",
   chars "if", chars "int", chars "long", chars "register", chars "return",
   chars "short", chars "signed", chars "sizeof", chars "static",
   chars "struct", chars "switch", chars "typedef", chars "union",
   chars "unsigned", chars "void", chars "volatile", chars "while"]

/-- `Config.C_OPERATORS` sorted with `key = (len, x), reverse = True`
(tokenizer.py `_build_operator_trie`): descending length, and descending
lexicographically inside a length class. -/
def operatorsSorted : List Str :=
  [chars ">>=", chars "<<=",
   chars "||", chars "|=", chars "^=", chars ">>", chars ">=", chars "==",
   chars "<=", chars "<<", chars "/=", chars "->", chars "-=", chars "--",
   chars "+=", chars "++", chars "*=", chars "&=", chars "&&", chars "%=",
   chars "!=",
   chars "~", chars "\x7d", chars "|", chars "\x7b", chars "^", chars "]",
   chars "[", chars "?", chars ">", chars "=", chars "<", chars ";",
   chars ":", chars "/", chars ".", chars "-", chars ",", chars "+",
   chars "*", chars ")", chars "(", chars "&", chars "%", chars "!"]

/-- `SensitivityConfig` (config.py lines 12-36). -/
structure SensitivityConfig where
  ignore_variable_names : Bool
  ignore_function_names : Bool
  ignore_type_names : Bool
  ignore_string_literals : Bool
  ignore_numeric_literals : Bool
  normalize_whitespace : Bool
  remove_comments : Bool
  remove_includes : Bool
  ignore_operator_spacing : Bool
  ignore_bracket_style : Bool
deriving DecidableEq

/-- `SensitivityConfig.balanced` (config.py lines 54-68). -/
def SensitivityConfig.balanced : SensitivityConfig where
  ignore_variable_names := true
  ignore_function_names := false
  ignore_type_names := false
  ignore_string_literals := false
  ignore_numeric_literals := false
  normalize_whitespace := true
  remove_comments := true
  remove_includes := true
  ignore_operator_spacing := true
  ignore_bracket_style := true

/-- `Config.get_sensitivity_config` with the default (unset) state:
`SensitivityConfig.balanced()` (config.py lines 170-175). -/
def getSensitivityConfig : SensitivityConfig := SensitivityConfig.balanced

/-! ## tokenizer.py : comment / preprocessor / whitespace passes -/

/-- Locate the first `*/` and return the remainder after it
(the closing search inside the non-greedy `/\*.*?\*/` match). -/
def cutClose : Str → Option Str
  | '*' :: '/' :: rest => some rest
  | _ :: cs => cutClose cs
  | [] => none

/-- `re.sub(r"/\*.*?\*/", " ", code)` with `DOTALL`: leftmost `/*`,
shortest stretch up to the next `*/`, replaced by one space; a `/*`
without a closing `*/` matches nothing.  Fuel is the string length. -/
def rmMultiF : Nat → Str → Str
  | 0, s => s
  | fuel + 1, s =>
    match s with
    | '/' :: '*' :: rest =>
      match cutClose rest with
      | some rest2 => ' ' :: rmMultiF fuel rest2
      | none => '/' :: '*' :: rest
    | c :: cs => c :: rmMultiF fuel cs
    | [] => []

/-- Drop up to (but keeping) the next newline, i.e. the `.*?$` tail of a
`MULTILINE` match. -/
def dropToEol (s : Str) : Str := s.dropWhile (fun c => !(c == '\n'))

/-- `re.sub(r"//.*?$", " ", code)` with `MULTILINE`: each `//` starts a
match that runs to just before the next newline and is replaced by one
space. -/
def rmSingleF : Nat → Str → Str
  | 0, s => s
  | fuel + 1, s =>
    match s with
    | '/' :: '/' :: rest => ' ' :: rmSingleF fuel (dropToEol rest)
    | c :: cs => c :: rmSingleF fuel cs
    | [] => []

/-- `CTokenizer._remove_comments` (tokenizer.py lines 72-84): multi-line
comments are removed first, then single-line comments.  The flag is
`Config.REMOVE_COMMENTS` (true) on the detector path. -/
def removeComments (flag : Bool) (code : Str) : Str :=
  if flag then
    let step1 := rmMultiF code.length code
    rmSingleF step1.length step1
  else code

/-- Keywords of the preprocessor pattern, in the alternation order of the
source regex (so `ifdef`/`ifndef` are tried before `if`). -/
def prepKeywords : List Str :=
  [chars "include", chars "define", chars "ifdef", chars "ifndef",
   chars "endif", chars "undef", chars "if", chars "else", chars "elif",
   chars "pragma"]

/-- Case-insensitive prefix test (the pattern is compiled `IGNORECASE`). -/
def ciPrefixOf (pat s : Str) : Bool := List.isPrefixOf pat (lowerStr (s.take pat.length))

/-- Attempt the body of `^\s*#\s*(?:include|…|pragma).*?$` at a line
start: skip whitespace (which may span newlines), require `#`, skip
whitespace, require one directive keyword, then consume to the end of the
current line.  Returns the unconsumed remainder on success. -/
def tryPrepMatch (s : Str) : Option Str :=
  let s1 := s.dropWhile isSpaceCh
  match s1 with
  | '#' :: t =>
    let s2 := t.dropWhile isSpaceCh
    match prepKeywords.find? (fun kw => ciPrefixOf kw s2) with
    | some kw => some (dropToEol (s2.drop kw.length))
    | none => none
  | _ => none

/-- `re.sub` driver for the preprocessor pattern: the `MULTILINE` anchor
`^` lets a match start only at the string start or right after a newline;
after a substitution scanning resumes at the end of the match. -/
def rmPrepF : Nat → Bool → Str → Str
  | 0, _, s => s
  | fuel + 1, atStart, s =>
    match s with
    | [] => []
    | c :: cs =>
      if atStart then
        match tryPrepMatch s with
        | some rest => ' ' :: rmPrepF fuel false rest
        | none => c :: rmPrepF fuel (c == '\n') cs
      else c :: rmPrepF fuel (c == '\n') cs

/-- `CTokenizer._remove_preprocessor` (tokenizer.py lines 86-95); the flag
is `Config.REMOVE_INCLUDES` (true) on the detector path. -/
def removePreprocessor (flag : Bool) (code : Str) : Str :=
  if flag then rmPrepF code.length true code else code

/-- `re.sub(r"\s+", " ", code)`: every maximal whitespace run becomes a
single space (`CTokenizer._normalize_whitespace`, tokenizer.py 97-108). -/
def normWsAux : Str → Bool → Str
  | [], _ => []
  | c :: cs, inRun =>
    if isSpaceCh c then
      if inRun then normWsAux cs true else ' ' :: normWsAux cs true
    else c :: normWsAux cs false

def normalizeWhitespace (flag : Bool) (code : Str) : Str :=
  if flag then normWsAux code false else code

/-! ## tokenizer.py : the lexer `_tokenize_code` -/

/-- Tokenization mode (`"structural"` or `"literal"`). -/
inductive Mode where
  | structural
  | literal
deriving DecidableEq

/-- `CTokenizer._match_operator`: first operator of the sorted table that
is a prefix of the remaining input. -/
def matchOperator (s : Str) : Option Str :=
  operatorsSorted.find? (fun op => List.isPrefixOf op s)

/-- Count of leading characters satisfying `p`. -/
def leadCount (p : Char → Bool) (s : Str) : Nat := (s.takeWhile p).length

def isHexCh (c : Char) : Bool :=
  isDigitCh c || (decide ('a' ≤ c) && decide (c ≤ 'f')) ||
    (decide ('A' ≤ c) && decide (c ≤ 'F'))

def isOctCh (c : Char) : Bool := decide ('0' ≤ c) && decide (c ≤ '7')

/-- Does a match of length `n` satisfy the trailing `\b` of the number
pattern?  A word boundary holds iff exactly one of the characters around
position `n` is a word character (out of range counts as non-word); `n`
is always at least 1 here. -/
def boundOkAt (s : Str) (n : Nat) : Bool :=
  let w := fun (o : Option Char) =>
    match o with
    | none => false
    | some c => wordCh c
  w (s.get? (n - 1)) != w (s.get? n)

/-- Candidate match lengths `base + m, base + m - 1, …, base`, i.e. the
backtracking order of a trailing greedy star of `m` characters. -/
def descFrom (base m : Nat) : List Nat :=
  (List.range (m + 1)).map (fun t => base + m - t)

/-- Candidate lengths `d, d-1, …, 1`: backtracking order of a greedy
plus. -/
def descPos (d : Nat) : List Nat := (List.range d).map (fun t => d - t)

/-- First candidate length passing the trailing boundary. -/
def firstBound (s : Str) (cands : List Nat) : Option Nat :=
  cands.find? (boundOkAt s)

/-- Alternative `0[xX][0-9a-fA-F]+` of the number pattern. -/
def numAltHex (s : Str) : Option Nat :=
  match s with
  | c0 :: c1 :: _ =>
    if c0 == '0' && (c1 == 'x' || c1 == 'X') then
      let m := leadCount isHexCh (s.drop 2)
      if m = 0 then none else firstBound s (descFrom 3 (m - 1))
    else none
  | _ => none

/-- Alternative `0[0-7]*`. -/
def numAltOct (s : Str) : Option Nat :=
  match s with
  | c0 :: t =>
    if c0 == '0' then firstBound s (descFrom 1 (leadCount isOctCh t)) else none
  | [] => none

/-- Alternative `[0-9]+\.[0-9]*`: the leading plus cannot usefully
backtrack (a shorter digit run is still followed by a digit, never by
`.`), so only the maximal run is tried, with the trailing star
backtracking. -/
def numAltDot (s : Str) : Option Nat :=
  let d := leadCount isDigitCh s
  if d = 0 then none
  else
    (descPos d).findSome? (fun dd =>
      if s.get? dd == some '.' then
        firstBound s (descFrom (dd + 1) (leadCount isDigitCh (s.drop (dd + 1))))
      else none)

/-- The `[eE][+-]?[0-9]+\b` tail of the exponent alternative, attempted
at offset `p`. -/
def numExpTail (s : Str) (p : Nat) : Option Nat :=
  match s.get? p with
  | some c =>
    if c == 'e' || c == 'E' then
      let q :=
        match s.get? (p + 1) with
        | some c2 => if c2 == '+' || c2 == '-' then p + 2 else p + 1
        | none => p + 1
      let f := leadCount isDigitCh (s.drop q)
      if f = 0 then none else firstBound s ((List.range f).map (fun t => q + f - t))
    else none
  | none => none

/-- Alternative `[0-9]+\.?[0-9]*[eE][+-]?[0-9]+` with the regex engine's
backtracking order: mantissa plus from longest, the optional dot taken
first, the fractional star from longest. -/
def numAltExp (s : Str) : Option Nat :=
  let d := leadCount isDigitCh s
  if d = 0 then none
  else
    (descPos d).findSome? (fun dd =>
      let withDot : Option Nat :=
        if s.get? dd == some '.' then
          let c := leadCount isDigitCh (s.drop (dd + 1))
          (descFrom (dd + 1) c).findSome? (numExpTail s)
        else none
      match withDot with
      | some r => some r
      | none =>
        let c := leadCount isDigitCh (s.drop dd)
        (descFrom dd c).findSome? (numExpTail s))

/-- Alternative `[0-9]+\.?`. -/
def numAltPlain (s : Str) : Option Nat :=
  let d := leadCount isDigitCh s
  if d = 0 then none
  else
    (descPos d).findSome? (fun dd =>
      if s.get? dd == some '.' then firstBound s [dd + 1, dd]
      else firstBound s [dd])

/-- `number_pattern.match(code, i)` (tokenizer.py lines 56-58): the
leading `\b` requires the previous character (if any) to be a non-word
character, every alternative starting with a digit; alternatives are
tried in the order of the source regex. -/
def matchNumber (prev : Option Char) (s : Str) : Option Nat :=
  let prevWord :=
    match prev with
    | some c => wordCh c
    | none => false
  if prevWord then none
  else
    match numAltHex s with
    | some r => some r
    | none =>
      match numAltOct s with
      | some r => some r
      | none =>
        match numAltDot s with
        | some r => some r
        | none =>
          match numAltExp s with
          | some r => some r
          | none => numAltPlain s

/-- Body of a quoted literal `(?:\\.|[^q\\])*q` after the opening quote
`q`: returns the number of characters consumed including the closing
quote. -/
def strBody (q : Char) : Str → Option Nat
  | [] => none
  | c :: cs =>
    if c == q then some 1
    else if c == '\\' then
      match cs with
      | [] => none
      | _ :: cs2 =>
        match strBody q cs2 with
        | some n => some (n + 2)
        | none => none
    else
      match strBody q cs with
      | some n => some (n + 1)
      | none => none

/-- `string_pattern.match(code, i)` (tokenizer.py lines 50-53): a double-
or single-quoted literal with escape handling, `DOTALL`. -/
def matchString (s : Str) : Option Nat :=
  match s with
  | c :: cs =>
    if c == '"' || c == '\'' then
      match strBody c cs with
      | some n => some (n + 1)
      | none => none
    else none
  | [] => none

/-- `identifier_pattern.match(code, i)`: `\b[a-zA-Z_][a-zA-Z0-9_]*\b`.
The trailing `\b` always holds after the greedy star. -/
def matchIdent (prev : Option Char) (s : Str) : Option Str :=
  let prevWord :=
    match prev with
    | some c => wordCh c
    | none => false
  if prevWord then none
  else
    match s with
    | c :: cs =>
      if (decide ('a' ≤ c) && decide (c ≤ 'z')) || (decide ('A' ≤ c) && decide (c ≤ 'Z')) ||
          c == '_' then
        some (c :: cs.takeWhile wordCh)
      else none
    | [] => none

/-- `CTokenizer._is_keyword` (tokenizer.py lines 110-112). -/
def isKeyword (w : Str) : Bool := C_KEYWORDS.contains (lowerStr w)

/-- One step of the `_tokenize_code` scan loop: token emitted (if any)
and number of characters consumed (always at least one on nonempty
input). -/
def lexStep (mode : Mode) (prev : Option Char) (s : Str) : Option Str × Nat :=
  match s with
  | [] => (none, 0)
  | c :: _ =>
    if isSpaceCh c then (none, 1)
    else
      match matchOperator s with
      | some op => (some op, op.length)
      | none =>
        match matchNumber prev s with
        | some n => (some (chars "NUM"), n)
        | none =>
          match matchString s with
          | some n => (some (chars "STR"), n)
          | none =>
            match matchIdent prev s with
            | some w =>
              if isKeyword w then (some (upperStr w), w.length)
              else if mode = Mode.structural then (some (chars "ID"), w.length)
              else (some w, w.length)
            | none => (none, 1)

/-- The `_tokenize_code` while-loop (tokenizer.py lines 126-198), with
the previous character threaded for the `\b` assertions.  Fuel is the
input length; every iteration consumes at least one character. -/
def lexLoop (mode : Mode) : Nat → Option Char → Str → List Str
  | 0, _, _ => []
  | _, _, [] => []
  | fuel + 1, prev, s =>
    let (tok, k) := lexStep mode prev s
    let k := max k 1
    let rest := lexLoop mode fuel (s.get? (k - 1)) (s.drop k)
    match tok with
    | some t => t :: rest
    | none => rest

/-- `CTokenizer._tokenize_code`. -/
def tokenizeCode (code : Str) (mode : Mode) : List Str :=
  lexLoop mode code.length none code

/-- `CTokenizer.tokenize_to_list` (tokenizer.py lines 351-377) on the
detector path, where all three preprocessing flags are true. -/
def tokenizeToList (code : Str) (mode : Mode) : List Str :=
  if code.isEmpty || (code.dropWhile isSpaceCh).isEmpty then []
  else
    tokenizeCode
      (normalizeWhitespace true (removePreprocessor true (removeComments true code)))
      mode

/-! ## tokenizer.py : template subtraction -/

/-- `" ".join(tokens)`. -/
def joinT (ts : List Str) : Str := List.intercalate [' '] ts

/-- Python `pat in s` (substring test). -/
def substrB (pat : Str) : Str → Bool
  | [] => List.isPrefixOf pat []
  | c :: cs => List.isPrefixOf pat (c :: cs) || substrB pat cs

/-- Python `s.replace(pat, "", 1)`: delete the leftmost occurrence of
`pat` (if any). -/
def replOnce : Str → Str → Str
  | [], _ => []
  | c :: cs, pat =>
    if List.isPrefixOf pat (c :: cs) then (c :: cs).drop pat.length
    else c :: replOnce cs pat

/-- Python `s.split()`: split on whitespace runs, dropping empties.  The
accumulator holds the current token reversed. -/
def splitWsAux : Str → Str → List Str
  | [], cur => if cur = [] then [] else [cur.reverse]
  | c :: cs, cur =>
    if isSpaceCh c then
      if cur = [] then splitWsAux cs [] else cur.reverse :: splitWsAux cs []
    else splitWsAux cs (c :: cur)

def splitWs (s : Str) : List Str := splitWsAux s []

/-- `CTokenizer.subtract_template_tokens` (tokenizer.py lines 409-444):
joined-string substring removal, re-split on whitespace, with the
original stream returned when the template string does not occur or the
removal result is empty. -/
def subtractTemplateTokens (student template : List Str) : List Str :=
  if template = [] ∨ student = [] then student
  else
    let studentStr := joinT student
    let templateStr := joinT template
    if substrB templateStr studentStr then
      let res := splitWs (replOnce studentStr templateStr)
      if res = [] then student else res
    else student

/-! ## difflib.SequenceMatcher, as instantiated by the detector

The detector always builds `SequenceMatcher(None, str1, str2)`, so the
junk predicate is empty and only the autojunk pruning of popular
elements applies.  Sequences are the space-joined token strings. -/

/-- Positions (ascending) of `c` in `b`: the `b2j` entry before autojunk
pruning. -/
def positionsOf (c : Char) (b : Str) : List Nat :=
  (b.enum.filter (fun p => p.2 == c)).map (fun p => p.1)

/-- Autojunk: an element is popular (and removed from `b2j`) when `b` has
at least 200 elements and the element occurs more than `len(b) // 100 + 1`
times. -/
def isPopular (b : Str) (c : Char) : Bool :=
  decide (200 ≤ b.length) && decide (b.length / 100 + 1 < b.count c)

/-- `self.b2j` after `__chain_b`. -/
def b2j (b : Str) (c : Char) : List Nat :=
  if isPopular b c then [] else positionsOf c b

/-- Running best match of `find_longest_match`. -/
structure Best where
  i : Nat
  j : Nat
  size : Nat
deriving DecidableEq

/-- Inner loop of `find_longest_match` over `b2j[a[i]]`: builds
`newj2len` and updates the best match; `j ≥ bhi` breaks out (the
position lists are ascending). -/
def innerLoop (i blo bhi : Nat) (j2 : Nat → Nat) :
    List Nat → (Nat → Nat) → Best → (Nat → Nat) × Best
  | [], nj, best => (nj, best)
  | j :: js, nj, best =>
    if j < blo then innerLoop i blo bhi j2 js nj best
    else if bhi ≤ j then (nj, best)
    else
      let k := (match j with | 0 => 0 | t + 1 => j2 t) + 1
      let nj2 := fun x => if x = j then k else nj x
      let best2 := if best.size < k then Best.mk (i + 1 - k) (j + 1 - k) k else best
      innerLoop i blo bhi j2 js nj2 best2

/-- Outer loop of `find_longest_match` over `i ∈ range(alo, ahi)`. -/
def outerLoop (a : Str) (bj : Char → List Nat) (blo bhi : Nat) :
    List Nat → (Nat → Nat) → Best → Best
  | [], _, best => best
  | i :: is, j2, best =>
    let js := match a.get? i with | some c => bj c | none => []
    let (nj, best2) := innerLoop i blo bhi j2 js (fun _ => 0) best
    outerLoop a bj blo bhi is nj best2

/-- Equality of the opttwo characters, false when either is absent. -/
def chEq (x y : Option Char) : Bool :=
  match x, y with
  | some c, some d => c == d
  | _, _ => false

/-- First extension loop: extend the best backwards over equal (non-junk;
the junk set is empty here) elements. -/
def extendBack (a b : Str) (alo blo : Nat) : Nat → Best → Best
  | 0, best => best
  | fuel + 1, best =>
    if alo < best.i && blo < best.j &&
        chEq (a.get? (best.i - 1)) (b.get? (best.j - 1)) then
      extendBack a b alo blo fuel (Best.mk (best.i - 1) (best.j - 1) (best.size + 1))
    else best

/-- Second extension loop: extend the best forwards over equal
elements. -/
def extendFwd (a b : Str) (ahi bhi : Nat) : Nat → Best → Best
  | 0, best => best
  | fuel + 1, best =>
    if best.i + best.size < ahi && best.j + best.size < bhi &&
        chEq (a.get? (best.i + best.size)) (b.get? (best.j + best.size)) then
      extendFwd a b ahi bhi fuel (Best.mk best.i best.j (best.size + 1))
    else best

/-- `find_longest_match(alo, ahi, blo, bhi)` for a matcher with an empty
junk set: DP best, then the two (non-junk) extension loops; the junk
extension loops never fire. -/
def findLongestMatch (a b : Str) (bj : Char → List Nat) (alo ahi blo bhi : Nat) : Best :=
  let d := outerLoop a bj blo bhi (List.range' alo (ahi - alo)) (fun _ => 0)
    (Best.mk alo blo 0)
  let e := extendBack a b alo blo d.i d
  extendFwd a b ahi bhi (ahi + 1) e

/-- The total size of the blocks produced by the `get_matching_blocks`
queue loop.  `ratio` only uses this sum, which the subsequent sort and
adjacent-merge steps of the source preserve.  The queue is processed as a
stack as in the source; the fuel `len(a) + len(b) + 1` dominates the
number of pops. -/
def matchingBlocksSum (a b : Str) (bj : Char → List Nat) :
    Nat → List (Nat × Nat × Nat × Nat) → Nat
  | 0, _ => 0
  | _, [] => 0
  | fuel + 1, (alo, ahi, blo, bhi) :: queue =>
    let m := findLongestMatch a b bj alo ahi blo bhi
    if m.size = 0 then matchingBlocksSum a b bj fuel queue
    else
      m.size + matchingBlocksSum a b bj fuel
        ((if alo < m.i ∧ blo < m.j then [(alo, m.i, blo, m.j)] else []) ++
          (if m.i + m.size < ahi ∧ m.j + m.size < bhi then
            [(m.i + m.size, ahi, m.j + m.size, bhi)] else []) ++ queue)

/-- `SequenceMatcher(None, a, b).ratio()`:
`2 * M / (len(a) + len(b))`, and `1.0` when both sequences are empty. -/
def ratioQ (a b : Str) : ℚ :=
  let t := a.length + b.length
  if t = 0 then 1
  else 2 * (matchingBlocksSum a b (b2j b) (t + 1) [(0, a.length, 0, b.length)] : ℚ) / t

/-! ## Proof infrastructure for the matcher on two equal sequences -/

/-- Is position `i` of `s` occupied by a non-popular element? -/
def nonPop (s : Str) (i : Nat) : Bool :=
  match s.get? i with
  | some c => !isPopular s c
  | none => false

/-- Length of the maximal run of non-popular positions of `s` ending at `i`. -/
def runLen (s : Str) : Nat → Nat
  | 0 => if nonPop s 0 then 1 else 0
  | i + 1 => if nonPop s (i + 1) then runLen s i + 1 else 0

/-- `runLen` of the previous row (`0` for the first row). -/
def rPrev (s : Str) : Nat → Nat
  | 0 => 0
  | i + 1 => runLen s i

/-- The candidate chain length `k = j2len.get(j-1, 0) + 1` of the inner
loop. -/
def kOf (j2 : Nat → Nat) : Nat → Nat
  | 0 => 0 + 1
  | t + 1 => j2 t + 1

/-- Row invariant of the `find_longest_match` DP on two equal sequences. -/
def DiagInv (s : Str) (i : Nat) (j2 : Nat → Nat) (best : Best) : Prop :=
  best.i = best.j ∧
  best.i + best.size ≤ s.length ∧
  (∀ t, j2 t ≤ runLen s t) ∧
  (∀ t, j2 t ≤ rPrev s i) ∧
  (∀ t, t + 1 = i → j2 t = runLen s t) ∧
  (∀ t, t < i → runLen s t ≤ best.size)

/-! ## plagiarism_detector.py -/

/-- The similarity cache: an insertion-ordered map from sorted pairs of
joined token strings to similarity percentages. -/
abbrev Cache := List ((Str × Str) × ℚ)

/-- Association-list lookup (first match), i.e. Python dict read. -/
def alookup (cache : Cache) (k : Str × Str) : Option ℚ :=
  match cache.find? (fun e => e.1 = k) with
  | some e => some e.2
  | none => none

/-- Python `sorted([x, y])` for two strings, as a pair. -/
def sortPair (x y : Str) : Str × Str :=
  if lexLe x y then (x, y) else (y, x)

/-- `PlagiarismDetector._calculate_similarity` (plagiarism_detector.py
lines 53-88): empty token lists short-circuit to `0.0`; otherwise the
cache is consulted under the sorted pair of joined strings, and on a miss
the `SequenceMatcher` ratio (×100) is computed and stored. -/
def calculateSimilarity (cache : Cache) (tokens1 tokens2 : List Str) : ℚ × Cache :=
  if tokens1 = [] ∨ tokens2 = [] then (0, cache)
  else
    let s1 := joinT tokens1
    let s2 := joinT tokens2
    let key := sortPair s1 s2
    match alookup cache key with
    | some v => (v, cache)
    | none =>
      let v := ratioQ s1 s2 * 100
      (v, cache ++ [(key, v)])

/-- The file system visible to the detector: path ↦ file contents (the
files that exist). -/
abbrev FileSys := List (Str × Str)

def fsRead (fs : FileSys) (path : Str) : Option Str :=
  match fs.find? (fun e => e.1 = path) with
  | some e => some e.2
  | none => none

/-- `PlagiarismDetector._is_valid_for_comparison` (plagiarism_detector.py
lines 90-131).  `template = []` plays the role of both `None` and an
empty template list (identical truthiness in the source). -/
def isValidForComparison (fs : FileSys) (template : List Str) (mode : Mode)
    (path : Str) : Bool × Option (List Str) :=
  match fsRead fs path with
  | none => (false, none)
  | some code =>
    let toks := tokenizeToList code mode
    if toks.length < MIN_TOKEN_COUNT then (false, none)
    else if template ≠ [] ∧ toks ≠ [] then
      let toks2 := subtractTemplateTokens toks template
      if toks2.length < MIN_TOKEN_COUNT then (false, none)
      else (true, some toks2)
    else (true, some toks)

/-- `PlagiarismDetector.compare_two_files` (plagiarism_detector.py lines
133-150), with the similarity cache threaded explicitly. -/
def compareTwoFiles (fs : FileSys) (template : List Str) (mode : Mode)
    (cache : Cache) (path1 path2 : Str) : ℚ × Cache :=
  let r1 := isValidForComparison fs template mode path1
  let r2 := isValidForComparison fs template mode path2
  match r1.2, r2.2 with
  | some t1, some t2 =>
    if r1.1 = false ∨ r2.1 = false ∨ t1 = [] ∨ t2 = [] then (0, cache)
    else calculateSimilarity cache t1 t2
  | _, _ => (0, cache)

/-- Python `round` on rationals: round-half-to-even. -/
def pyRound (q : ℚ) : ℤ :=
  let f := ⌊q⌋
  let r := q - (f : ℚ)
  if r < 1 / 2 then f
  else if 1 / 2 < r then f + 1
  else if f % 2 = 0 then f else f + 1

/-- `round(similarity, 2)`. -/
def round2 (q : ℚ) : ℚ := (pyRound (q * 100) : ℚ) / 100

/-- An emitted `PlagiarismCase` record (plagiarism_detector.py lines
208-215). -/
structure PlagCase where
  question : Nat
  student1 : Str
  student2 : Str
  similarity : ℚ
  file1 : Str
  file2 : Str
deriving DecidableEq

/-- `os.path.splitext(name)[0]`: strip the last extension, where the
leading dots of a pure dot-prefix are not extension separators. -/
def splitextBase (name : Str) : Str :=
  let lead := (name.takeWhile (fun c => c == '.')).length
  let rest := name.drop lead
  match (rest.reverse.takeWhile (fun c => !(c == '.'))).length with
  | k =>
    if k = rest.length then name
    else name.take (name.length - k - 1)

/-- `os.path.splitext(name)[1].lower()`. -/
def extOfLower (name : Str) : Str :=
  lowerStr (name.drop (splitextBase name).length)

/-- `file_name.endswith(tuple(Config.ACCEPTED_EXTENSIONS))`
(case-sensitive). -/
def endsWithAccepted (name : Str) : Bool :=
  ACCEPTED_EXTENSIONS.any (fun ext => List.isSuffixOf ext name)

/-- `os.path.join` for the POSIX-style paths of the model. -/
def pjoin (dir name : Str) : Str :=
  if dir = [] then name else dir ++ '/' :: name

/-- Python dict assignment `d[k] = v` on an insertion-ordered association
list: an existing key keeps its position and gets the new value, a new
key is appended. -/
def dinsert : List (Str × Str) → Str → Str → List (Str × Str)
  | [], k, v => [(k, v)]
  | (k1, v1) :: t, k, v =>
    if k1 = k then (k1, v) :: t else (k1, v1) :: dinsert t k v

/-- The `student_files` collection loop of
`detect_plagiarism_in_question` (plagiarism_detector.py lines 174-182):
accepted-extension files of the directory listing that pass
`_is_valid_for_comparison`, keyed by stem in a Python dict. -/
def collectStudentFiles (fs : FileSys) (template : List Str) (mode : Mode)
    (dir : Str) : List (Str × Str) → List (Str × Str) → List (Str × Str)
  | acc, [] => acc
  | acc, (name, _) :: rest =>
    if endsWithAccepted name then
      let path := pjoin dir name
      if (isValidForComparison fs template mode path).1 then
        collectStudentFiles fs template mode dir
          (dinsert acc (splitextBase name) path) rest
      else collectStudentFiles fs template mode dir acc rest
    else collectStudentFiles fs template mode dir acc rest

/-- All ordered index pairs `i < j` of a list, in the order of the nested
loops of the source. -/
def pairsOf : List α → List (α × α)
  | [] => []
  | x :: xs => xs.map (fun y => (x, y)) ++ pairsOf xs

/-- The nested comparison loop (plagiarism_detector.py lines 196-222):
for every pair the similarity is computed (threading the cache), a case
is emitted when it reaches `SIMILARITY_THRESHOLD`, and the pair's
computed similarity is recorded in an instrumentation trace used only by
the specification. -/
def pairLoop (fs : FileSys) (template : List Str) (mode : Mode) (qnum : Nat)
    (cache : Cache) :
    List ((Str × Str) × (Str × Str)) → List PlagCase × List (Str × Str × ℚ)
  | [] => ([], [])
  | ((s1, p1), (s2, p2)) :: rest =>
    let r := compareTwoFiles fs template mode cache p1 p2
    let next := pairLoop fs template mode qnum r.2 rest
    (if SIMILARITY_THRESHOLD ≤ r.1 then
      PlagCase.mk qnum s1 s2 (round2 r.1) p1 p2 :: next.1
    else next.1,
      (s1, s2, r.1) :: next.2)

/-- `PlagiarismDetector.detect_plagiarism_in_question` (plagiarism_detector.py
lines 152-223) over a modelled directory listing, together with the
similarity trace.  The listing plays the role of `os.listdir` (whose
order the OS determines) and also of the files' contents. -/
def detectQuestionFull (listing : List (Str × Str)) (dir : Str)
    (template : List Str) (mode : Mode) (qnum : Nat) :
    List PlagCase × List (Str × Str × ℚ) :=
  let fs : FileSys := listing.map (fun e => (pjoin dir e.1, e.2))
  let sf := collectStudentFiles fs template mode dir [] listing
  if sf.length < 2 then ([], [])
  else pairLoop fs template mode qnum [] (pairsOf sf)

/-- The emitted case list of `detect_plagiarism_in_question`. -/
def detectQuestion (listing : List (Str × Str)) (dir : Str)
    (template : List Str) (mode : Mode) (qnum : Nat) : List PlagCase :=
  (detectQuestionFull listing dir template mode qnum).1

/-- A well-formed token: nonempty and free of whitespace characters, as
the tokenizer produces them. -/
def tokenOk (t : Str) : Prop := t ≠ [] ∧ ∀ c ∈ t, isSpaceCh c = false

instance (t : Str) : Decidable (tokenOk t) := by
  unfold tokenOk
  infer_instance

/-- A 50-token template stream (50 semicolon tokens). -/
def tpl50 : List Str := List.replicate 50 (chars ";")

/-- A source text of 50 semicolons, whose token stream is `tpl50`. -/
def content50 : Str := List.replicate 50 ';'

/-- The token stream a file contributes after the template-subtraction
step of `_is_valid_for_comparison` (no gate applied): `none` when the
path does not exist. -/
def effectiveTokens (fs : FileSys) (template : List Str) (mode : Mode)
    (path : Str) : Option (List Str) :=
  match fsRead fs path with
  | none => none
  | some code =>
    let toks := tokenizeToList code mode
    some (if template ≠ [] ∧ toks ≠ [] then subtractTemplateTokens toks template
      else toks)

/-- A similarity cache every entry of which records the `SequenceMatcher`
ratio (×100) of its key pair, in one of the two orders.  Every cache a
detector run builds has this shape. -/
def CacheWF (cache : Cache) : Prop :=
  ∀ e ∈ cache, e.2 = ratioQ e.1.1 e.1.2 * 100 ∨ e.2 = ratioQ e.1.2 e.1.1 * 100

/-! ## file_mapper.py -/

/-- Path separator class `[/\]` of the mapper regexes. -/
def isSep (c : Char) : Bool := c == '/' || c == '\\'

/-- The digit character of a single-digit question number (the run's
`NUM_QUESTIONS` is 6, so all question numbers are single digits). -/
def digitChar (q : Nat) : Char := Char.ofNat (48 + q)

/-- Word-boundary helper: the optional neighbouring character is absent
or a non-word character. -/
def notWordOpt (o : Option Char) : Bool :=
  match o with
  | none => true
  | some c => !(wordCh c)

/-- `(?:^|[/\])`: the position is the string start or preceded by a
separator. -/
def sepOrStart (o : Option Char) : Bool :=
  match o with
  | none => true
  | some c => isSep c

/-- `re.search` over a string: try the shape at every position, handing
it the previous character (for boundary and anchor assertions). -/
def searchShape (shape : Option Char → Str → Bool) : Option Char → Str → Bool
  | prev, [] => shape prev []
  | prev, c :: cs => shape prev (c :: cs) || searchShape shape (some c) cs

/-- Keyword patterns `\b(kw){q}\b` of `_build_strict_patterns` Pattern 1
(file_mapper.py lines 47-69), compiled `IGNORECASE`: a word boundary,
the keyword, the question digit, a word boundary. -/
def kwShape (kw : Str) (q : Nat) (prev : Option Char) (s : Str) : Bool :=
  notWordOpt prev && ciPrefixOf kw s &&
    (match s.drop kw.length with
     | d :: rest => d == digitChar q && notWordOpt rest.head?
     | [] => false)

/-- The tail `(?:\.(?:\.c|\.cpp|\.h)|[/\\_]|$)` of the filename-anchored
patterns.  Note the doubled dot faithfully kept from the source: the
extension alternatives are the `re.escape`d extensions including their
own leading dot, nested under another `\.`. -/
def anchorTail (rest : Str) : Bool :=
  match rest with
  | [] => true
  | c :: r2 =>
    if c == '.' then ACCEPTED_EXTENSIONS.any (fun e => ciPrefixOf (lowerStr e) r2)
    else isSep c || c == '_'

/-- Pattern 2 keyword form: `(?:^|[/\])(kw){q}(?:\.(?:\.c|\.cpp|\.h)|[/\\_]|$)`
(file_mapper.py lines 74-85). -/
def fileAnchorShape (kw : Str) (q : Nat) (prev : Option Char) (s : Str) : Bool :=
  sepOrStart prev && ciPrefixOf kw s &&
    (match s.drop kw.length with
     | d :: rest => d == digitChar q && anchorTail rest
     | [] => false)

/-- Pattern 2 standalone-number form for single digits:
`(?:^|[/\])(?:0?{q})(?:\.(?:\.c|\.cpp|\.h)|[/\\_]|$)` (file_mapper.py
lines 88-95). -/
def numFileShape (q : Nat) (prev : Option Char) (s : Str) : Bool :=
  sepOrStart prev &&
    ((match s with
      | '0' :: d :: rest => d == digitChar q && anchorTail rest
      | _ => false) ||
     (match s with
      | d :: rest => d == digitChar q && anchorTail rest
      | [] => false))

/-- Pattern 3 bracketed forms `\[{q}\]`, `\({q}\)`, `_{q}_`
(file_mapper.py lines 106-114). -/
def brktShape (l r : Char) (q : Nat) (_prev : Option Char) (s : Str) : Bool :=
  match s with
  | a :: d :: b :: _ => a == l && d == digitChar q && b == r
  | _ => false

/-- Optional keyword alternatives of the directory pattern (no `sual`
here, faithfully to the source). -/
def dirKwOptions : List Str :=
  [[], chars "q", chars "question", chars "soal", chars "problem",
   chars "ex", chars "exercise"]

/-- Pattern 4 `[/\](?:q|question|soal|problem|ex|exercise)?{q}[/\]`
(file_mapper.py lines 118-120). -/
def dirShape (q : Nat) (_prev : Option Char) (s : Str) : Bool :=
  match s with
  | c :: rest =>
    isSep c && dirKwOptions.any (fun kw =>
      ciPrefixOf kw rest &&
        (match rest.drop kw.length with
         | d :: r2 =>
           d == digitChar q &&
             (match r2 with
              | c2 :: _ => isSep c2
              | [] => false)
         | [] => false))
  | [] => false

/-- Keywords of Pattern 1. -/
def strictKwList : List Str :=
  [chars "q", chars "question", chars "soal", chars "sual", chars "problem",
   chars "ex", chars "exercise"]

/-- Keywords of Pattern 2's keyword form. -/
def anchorKwList : List Str := [chars "q", chars "question"]

/-- Does any strict pattern for question `q` match (`pattern.search`)
somewhere in `text`? -/
def patternMatch (q : Nat) (text : Str) : Bool :=
  strictKwList.any (fun kw => searchShape (kwShape kw q) none text) ||
    anchorKwList.any (fun kw => searchShape (fileAnchorShape kw q) none text) ||
    searchShape (numFileShape q) none text ||
    searchShape (brktShape '[' ']' q) none text ||
    searchShape (brktShape '(' ')' q) none text ||
    searchShape (brktShape '_' '_' q) none text ||
    searchShape (dirShape q) none text

/-- `file_path.replace('\\', '/')`. -/
def normalizePath (p : Str) : Str := p.map (fun c => if c == '\\' then '/' else c)

/-- `os.path.basename`, splitting on both separators as on the Windows
host the source targets. -/
def basenameOf (p : Str) : Str :=
  ((normalizePath p).reverse.takeWhile (fun c => !(c == '/'))).reverse

/-- Python `str.split('/')`, empty pieces included. -/
def splitSlashAux : Str → Str → List Str
  | [], cur => [cur.reverse]
  | c :: cs, cur =>
    if c == '/' then cur.reverse :: splitSlashAux cs [] else splitSlashAux cs (c :: cur)

def splitOnSlash (s : Str) : List Str := splitSlashAux s []

/-- Does question `q` collect any confidence score in
`_match_strict_patterns` (file_mapper.py lines 144-177): some pattern
hits the file name, the normalized path, or a directory part. -/
def strictQMatch (q : Nat) (path : Str) : Bool :=
  let name := basenameOf path
  let norm := normalizePath path
  let parts := (splitOnSlash norm).dropLast
  patternMatch q name || patternMatch q norm || parts.any (patternMatch q)

/-- The maximal confidence collected for a matching question: 0.9 for a
file-name hit, else 0.7 for a whole-path hit, else 0.5 (directory
part). -/
def strictConfidence (q : Nat) (path : Str) : ℚ :=
  if patternMatch q (basenameOf path) then 9 / 10
  else if patternMatch q (normalizePath path) then 7 / 10
  else 1 / 2

/-- The questions whose pattern lists match the file, in ascending
order (the iteration order of `self.mapping_patterns`). -/
def matchedQuestions (path : Str) : List Nat :=
  (List.range' 1 NUM_QUESTIONS).filter (fun q => strictQMatch q path)

/-- `FileMapper._match_strict_patterns` (file_mapper.py lines 144-196):
`none` for no match and for an ambiguous (≥ 2 questions) match. -/
def matchStrictPatterns (path : Str) : Option (Nat × ℚ) :=
  match matchedQuestions path with
  | [] => none
  | [q] => some (q, strictConfidence q path)
  | _ => none

/-- `re.findall(r'\d+', text)`: the maximal digit runs, via an
accumulator holding the current run reversed. -/
def digitRunsAux : Str → Str → List Str
  | [], cur => if cur = [] then [] else [cur.reverse]
  | c :: cs, cur =>
    if isDigitCh c then digitRunsAux cs (c :: cur)
    else if cur = [] then digitRunsAux cs [] else cur.reverse :: digitRunsAux cs []

def digitRuns (s : Str) : List Str := digitRunsAux s []

/-- `int` of a digit run. -/
def natOfDigits (ds : Str) : Nat := ds.foldl (fun a c => 10 * a + (c.toNat - 48)) 0

/-- `FileMapper._extract_all_numbers` (file_mapper.py lines 126-142):
numbers in the valid question range. -/
def extractAllNumbers (text : Str) : List Nat :=
  ((digitRuns text).map natOfDigits).filter
    (fun n => decide (1 ≤ n) && decide (n ≤ NUM_QUESTIONS))

/-- `FileMapper.map_file_to_question` (file_mapper.py lines 198-241):
existence check, extension check, strict patterns, then the
single-number fallback with confidence 0.4. -/
def mapFileToQuestion (fsPaths : List Str) (path : Str) : Option (Nat × ℚ) :=
  if ¬ (fsPaths.contains path) then none
  else
    let name := basenameOf path
    if ¬ (ACCEPTED_EXTENSIONS.contains (extOfLower name)) then none
    else
      match matchStrictPatterns path with
      | some r => some r
      | none =>
        let allText := path ++ ' ' :: name
        let validNumbers := extractAllNumbers allText
        if validNumbers.length = 1 then some (validNumbers.headD 0, 2 / 5)
        else none

/-- Python `mapping.setdefault(q, []).append(e)` semantics on an
insertion-ordered association list. -/
def addToMapping (mp : List (Nat × List (Str × ℚ))) (q : Nat) (e : Str × ℚ) :
    List (Nat × List (Str × ℚ)) :=
  match mp with
  | [] => [(q, [e])]
  | (q1, l) :: t =>
    if q1 = q then (q1, l ++ [e]) :: t else (q1, l) :: addToMapping t q e

/-- The per-question candidate collection loop of
`FileMapper.map_student_files` (file_mapper.py lines 283-292). -/
def buildMapping (fsPaths : List Str) (cFiles : List Str) :
    List (Nat × List (Str × ℚ)) :=
  cFiles.foldl
    (fun mp f =>
      match mapFileToQuestion fsPaths f with
      | some r => addToMapping mp r.1 (f, r.2)
      | none => mp) []

/-- The best candidate of a question: maximal confidence, ties broken by
shorter path, earlier candidate on full ties — the head of the stable
sort by `(-confidence, len(path))` in the source (lines 304-314). -/
def selectBest : List (Str × ℚ) → Option Str
  | [] => none
  | c :: cs =>
    some ((cs.foldl
      (fun best x =>
        if best.2 < x.2 ∨ (x.2 = best.2 ∧ x.1.length < best.1.length) then x
        else best) c).1)

/-- `FileMapper.map_student_files` final mapping: one selected file per
matched question.  The collection of candidate files (`os.walk` plus the
extension filter) is the `cFiles` argument. -/
def mapStudentFiles (fsPaths : List Str) (cFiles : List Str) : List (Nat × Str) :=
  (buildMapping fsPaths cFiles).filterMap
    (fun e => (selectBest e.2).map (fun p => (e.1, p)))

/-- The character immediately before the suffix reached after consuming
`a`, starting from a position whose own previous character is `prev`
(specification helper for `searchShape`). -/
def prevOf (prev : Option Char) (a : Str) : Option Char :=
  match a.getLast? with
  | some c => some c
  | none => prev

/-- A maximal digit run with value-relevant shape: the text decomposes
around a nonempty all-digit run whose neighbours (when present) are not
digits. -/
def isolatedAt (u r : Str) : Prop :=
  ∃ x y, u = x ++ r ++ y ∧ r ≠ [] ∧ (∀ c ∈ r, isDigitCh c = true) ∧
    (∀ c, x.getLast? = some c → isDigitCh c = false) ∧
    (∀ c, y.head? = some c → isDigitCh c = false)

/-! ## Lemmas about joining, splitting and template subtraction -/

theorem joinT_nil : joinT [] = [] := rfl

theorem joinT_single (t : Str) : joinT [t] = t := by
  simp [joinT, List.intercalate]

theorem joinT_cons₂ (t u : Str) (r : List Str) :
    joinT (t :: u :: r) = t ++ ' ' :: joinT (u :: r) := by
  simp [joinT, List.intercalate, List.intersperse]

theorem joinT_cons_ne (t : Str) (r : List Str) (hr : r ≠ []) :
    joinT (t :: r) = t ++ ' ' :: joinT r := by
  cases r with
  | nil => exact absurd rfl hr
  | cons u r2 => exact joinT_cons₂ t u r2

theorem joinT_append_ne (T R : List Str) (hT : T ≠ []) (hR : R ≠ []) :
    joinT (T ++ R) = joinT T ++ ' ' :: joinT R := by
  induction T with
  | nil => exact absurd rfl hT
  | cons t T2 ih =>
    cases T2 with
    | nil =>
      simp only [List.singleton_append]
      rw [joinT_cons_ne t R hR, joinT_single]
    | cons u T3 =>
      have h2 : (u :: T3 : List Str) ≠ [] := by simp
      have h3 : (u :: T3 ++ R : List Str) ≠ [] := by simp
      calc joinT (t :: u :: T3 ++ R)
          = t ++ ' ' :: joinT (u :: T3 ++ R) := joinT_cons_ne _ _ h3
        _ = t ++ ' ' :: (joinT (u :: T3) ++ ' ' :: joinT R) := by rw [ih h2]
        _ = (t ++ ' ' :: joinT (u :: T3)) ++ ' ' :: joinT R := by simp
        _ = joinT (t :: u :: T3) ++ ' ' :: joinT R := by rw [joinT_cons₂]

theorem isPrefixOf_append_self (l x : Str) : List.isPrefixOf l (l ++ x) = true := by
  induction l with
  | nil => simp [List.isPrefixOf]
  | cons c t ih => simp [List.isPrefixOf, ih]

theorem isPrefixOf_self (l : Str) : List.isPrefixOf l l = true := by
  have h := isPrefixOf_append_self l []
  rwa [List.append_nil] at h

theorem substrB_of_isPrefixOf (pat s : Str) (h : List.isPrefixOf pat s = true) :
    substrB pat s = true := by
  cases s with
  | nil => simpa [substrB] using h
  | cons c cs => simp [substrB, h]

theorem replOnce_of_isPrefixOf (s pat : Str) (h : List.isPrefixOf pat s = true) :
    replOnce s pat = s.drop pat.length := by
  cases s with
  | nil =>
    cases pat with
    | nil => rfl
    | cons p ps => simp [List.isPrefixOf] at h
  | cons c cs => simp [replOnce, h]

theorem splitWsAux_nonspace (r : Str) (hr : ∀ c ∈ r, isSpaceCh c = false) :
    ∀ (s cur : Str), splitWsAux (r ++ s) cur = splitWsAux s (r.reverse ++ cur) := by
  induction r with
  | nil => intro s cur; simp
  | cons c t ih =>
    intro s cur
    have hc : isSpaceCh c = false := hr c (by simp)
    have ht : ∀ x ∈ t, isSpaceCh x = false := fun x hx => hr x (by simp [hx])
    have step : splitWsAux (c :: (t ++ s)) cur = splitWsAux (t ++ s) (c :: cur) := by
      simp [splitWsAux, hc]
    calc splitWsAux ((c :: t) ++ s) cur
        = splitWsAux (t ++ s) (c :: cur) := step
      _ = splitWsAux s (t.reverse ++ (c :: cur)) := ih ht s (c :: cur)
      _ = splitWsAux s ((c :: t).reverse ++ cur) := by simp

theorem splitWsAux_space (s cur : Str) :
    splitWsAux (' ' :: s) cur =
      if cur = [] then splitWsAux s [] else cur.reverse :: splitWsAux s [] := by
  simp [splitWsAux, isSpaceCh]

theorem splitWs_joinT (R : List Str) (hR : R ≠ []) (hok : ∀ t ∈ R, tokenOk t) :
    splitWs (joinT R) = R := by
  induction R with
  | nil => exact absurd rfl hR
  | cons r R2 ih =>
    obtain ⟨hne, hns⟩ := hok r (by simp)
    cases R2 with
    | nil =>
      rw [joinT_single]
      have h0 : splitWsAux (r ++ []) [] = splitWsAux [] (r.reverse ++ []) :=
        splitWsAux_nonspace r hns [] []
      simp only [List.append_nil] at h0
      unfold splitWs
      rw [h0]
      simp [splitWsAux, hne]
    | cons u R3 =>
      have h2 : (u :: R3 : List Str) ≠ [] := by simp
      rw [joinT_cons_ne r (u :: R3) h2]
      have h0 := splitWsAux_nonspace r hns (' ' :: joinT (u :: R3)) []
      have h1 := splitWsAux_space (joinT (u :: R3)) (r.reverse ++ [])
      have hrev : (r.reverse ++ [] : Str) ≠ [] := by simpa using hne
      have ihx := ih h2 (fun t ht => hok t (by simp [ht]))
      unfold splitWs at ihx ⊢
      rw [h0, h1, if_neg hrev, ihx]
      simp

theorem subtract_self (t : List Str) (ht : t ≠ []) :
    subtractTemplateTokens t t = t := by
  unfold subtractTemplateTokens
  rw [if_neg (by simp [ht])]
  simp only
  rw [if_pos (substrB_of_isPrefixOf _ _ (isPrefixOf_self _))]
  rw [replOnce_of_isPrefixOf _ _ (isPrefixOf_self _)]
  simp [splitWs, splitWsAux]

theorem subtract_prefix_case (T R : List Str) (hT : T ≠ []) (hR : R ≠ [])
    (hokR : ∀ t ∈ R, tokenOk t) :
    subtractTemplateTokens (T ++ R) T = R := by
  have hTR : (T ++ R : List Str) ≠ [] := by
    intro h
    exact hT (List.append_eq_nil.mp h).1
  unfold subtractTemplateTokens
  rw [if_neg (by simp [hT, hTR])]
  simp only
  rw [joinT_append_ne T R hT hR]
  rw [if_pos (substrB_of_isPrefixOf _ _ (isPrefixOf_append_self _ _))]
  rw [replOnce_of_isPrefixOf _ _ (isPrefixOf_append_self _ _)]
  rw [List.drop_left]
  have hs : splitWs (' ' :: joinT R) = R := by
    unfold splitWs
    rw [splitWsAux_space, if_pos rfl]
    have h := splitWs_joinT R hR hokR
    unfold splitWs at h
    exact h
  rw [hs, if_neg hR]

/-- Claim C3 counterexample: subtracting the template stream `["ID"]`
from the student stream `["VOID"]` splices the student token, producing
`["VO"]` — the template does not occur as a whole-token subsequence, yet
the stream is changed, and the resulting token is drawn from no student
token. -/
theorem claim_C3_counterexample :
    subtractTemplateTokens [chars "VOID"] [chars "ID"] ≠ [chars "VOID"] ∧
      chars "VO" ∈ subtractTemplateTokens [chars "VOID"] [chars "ID"] ∧
      chars "VO" ∉ [chars "VOID"] := by
  refine ⟨?_, ?_, ?_⟩ <;> decide

/-- Claim C3 (amended): `subtract_template` works on the space-joined
strings, so token boundaries can be spliced.  What does hold: when the
joined template does not occur as a substring of the joined student
stream, the stream is returned unchanged; and when the student stream is
the template followed by a nonempty remainder of well-formed tokens, the
result is exactly that remainder (one contiguous occurrence of the
template removed). -/
theorem claim_C3_joined_subtraction :
    (∀ S T : List Str, substrB (joinT T) (joinT S) = false →
      subtractTemplateTokens S T = S) ∧
    (∀ T R : List Str, T ≠ [] → R ≠ [] → (∀ t ∈ R, tokenOk t) →
      subtractTemplateTokens (T ++ R) T = R) := by
  constructor
  · intro S T hocc
    unfold subtractTemplateTokens
    by_cases h : T = [] ∨ S = []
    · rw [if_pos h]
    · rw [if_neg h]
      simp only
      rw [if_neg (by simp [hocc])]
  · intro T R hT hR hokR
    exact subtract_prefix_case T R hT hR hokR

theorem claim_C3_witness :
    subtractTemplateTokens [chars "int", chars "main"] [chars "int"] = [chars "main"] :=
  claim_C3_joined_subtraction.2 [chars "int"] [chars "main"]
    (by decide) (by decide) (by decide)

/-! ## Claim C2 : a file equal to the template is not excluded -/

/-- Claim C2 counterexample: with a 50-token template and a file whose
token stream equals the template, template subtraction returns the
stream unchanged (the emptied result triggers the source's fallback), so
the stream is not shorter than `MIN_TOKEN_COUNT` and the file passes the
liveness gate instead of being excluded. -/
theorem claim_C2_counterexample :
    subtractTemplateTokens tpl50 tpl50 = tpl50 ∧
      MIN_TOKEN_COUNT ≤ tpl50.length ∧
      isValidForComparison [(chars "t.c", content50)] tpl50 Mode.structural
        (chars "t.c") = (true, some tpl50) := by
  refine ⟨subtract_self tpl50 (by decide), by decide, ?_⟩
  decide

/-- Claim C2 (amended): a file whose token stream equals the template
yields, after template subtraction, the original stream unchanged — the
emptied removal result triggers the fallback `return student_tokens` —
so with at least `MIN_TOKEN_COUNT` tokens it passes the liveness gate
and is not excluded. -/
theorem claim_C2_template_equal_file_included (fs : FileSys) (mode : Mode)
    (path : Str) (code : Str) (T : List Str)
    (hread : fsRead fs path = some code)
    (htok : tokenizeToList code mode = T)
    (hlen : MIN_TOKEN_COUNT ≤ T.length) :
    isValidForComparison fs T mode path = (true, some T) := by
  have hTne : T ≠ [] := by
    intro h
    rw [h] at hlen
    simp [MIN_TOKEN_COUNT] at hlen
  unfold isValidForComparison
  rw [hread]
  simp only [htok]
  rw [if_neg (by omega)]
  rw [if_pos ⟨hTne, hTne⟩]
  rw [subtract_self T hTne]
  rw [if_neg (by omega)]

theorem claim_C2_witness :
    isValidForComparison [(chars "t.c", content50)] tpl50 Mode.structural
      (chars "t.c") = (true, some tpl50) :=
  claim_C2_template_equal_file_included [(chars "t.c", content50)] Mode.structural
    (chars "t.c") content50 tpl50 (by decide) (by decide) (by decide)

/-! ## Claim C8 : comment removal inside string literals -/

/-- Claim C8 evaluation at the failing input: `_remove_comments` is a
raw-text regex substitution, so the `//` inside the string literal of
`char *s = "a//b";` is treated as a comment and the literal's text is
destroyed. -/
theorem claim_C8_comment_strips_literal :
    removeComments true (chars "char *s = \"a//b\";") = chars "char *s = \"a " := by
  decide


/-! ## Claim C9 : literal classification in the comparison tokenizer -/

theorem space_not_digit (c : Char) (h : isSpaceCh c = true) : isDigitCh c = false := by
  unfold isSpaceCh at h
  simp only [Bool.or_eq_true, beq_iff_eq] at h
  rcases h with ((((h | h) | h) | h) | h) | h <;> subst h <;> decide

theorem digit_not_space (c : Char) (h : isDigitCh c = true) : isSpaceCh c = false := by
  cases hs : isSpaceCh c with
  | false => rfl
  | true => rw [space_not_digit c hs] at h; exact absurd h (by simp)

theorem digit_word (c : Char) (h : isDigitCh c = true) : wordCh c = true := by
  unfold isDigitCh at h
  unfold wordCh
  rw [h]
  simp

theorem digit_ne (c d : Char) (h : isDigitCh c = true) (hd : isDigitCh d = false) :
    (c == d) = false := by
  cases he : c == d with
  | false => rfl
  | true =>
    rw [show c = d from by simpa using he, hd] at h
    exact absurd h (by simp)

theorem matchOperator_none_of (c : Char) (cs : Str)
    (h : ∀ op ∈ operatorsSorted, ∃ o ot, op = o :: ot ∧ (o == c) = false) :
    matchOperator (c :: cs) = none := by
  unfold matchOperator
  rw [List.find?_eq_none]
  intro op hop
  obtain ⟨o, ot, rfl, ho⟩ := h op hop
  simp [List.isPrefixOf, ho]

theorem beq_symm_char (a b : Char) : (a == b) = (b == a) := by
  cases h : a == b with
  | true => rw [show a = b from by simpa using h]; simp
  | false =>
    cases h2 : b == a with
    | true => rw [show b = a from by simpa using h2] at h; simp at h
    | false => rfl

theorem opHeads_not_digit (c : Char) (hc : isDigitCh c = true) :
    ∀ op ∈ operatorsSorted, ∃ o ot, op = o :: ot ∧ (o == c) = false := by
  intro op hop
  have hall : operatorsSorted.all
      (fun op => !op.isEmpty && !isDigitCh (op.headD ' ')) = true := by decide
  rw [List.all_eq_true] at hall
  have h1 := hall op hop
  cases op with
  | nil => simp at h1
  | cons o ot =>
    simp only [List.headD_cons, Bool.and_eq_true, Bool.not_eq_true'] at h1
    refine ⟨o, ot, rfl, ?_⟩
    rw [beq_symm_char]
    exact digit_ne c o hc h1.2

theorem mem_descFrom (base m x : Nat) (h : x ∈ descFrom base m) :
    base ≤ x ∧ x ≤ base + m := by
  unfold descFrom at h
  simp only [List.mem_map, List.mem_range] at h
  obtain ⟨t, ht, rfl⟩ := h
  omega

theorem mem_descPos (d x : Nat) (h : x ∈ descPos d) : 1 ≤ x ∧ x ≤ d := by
  unfold descPos at h
  simp only [List.mem_map, List.mem_range] at h
  obtain ⟨t, ht, rfl⟩ := h
  omega

theorem descFrom_head (base m : Nat) : ∃ tl, descFrom base m = (base + m) :: tl := by
  refine ⟨(List.range m).map (fun t => base + m - (t + 1)), ?_⟩
  unfold descFrom
  rw [List.range_succ_eq_map]
  simp [Function.comp]

theorem descPos_head (k : Nat) : ∃ tl, descPos (k + 1) = (k + 1) :: tl := by
  refine ⟨(List.range k).map (fun t => k + 1 - (t + 1)), ?_⟩
  unfold descPos
  rw [List.range_succ_eq_map]
  simp [Function.comp]

theorem findSome?_cons_some (f : α → Option β) (a : α) (l : List α) (b : β)
    (h : f a = some b) : (a :: l).findSome? f = some b := by
  simp [List.findSome?_cons, h]

theorem all_digits_get (ds : Str) (hd : ∀ c ∈ ds, isDigitCh c = true) (i : Nat)
    (hi : i < ds.length) : ∃ c, ds.get? i = some c ∧ isDigitCh c = true := by
  have h := List.get?_eq_get hi
  exact ⟨ds.get ⟨i, hi⟩, h, hd _ (List.get?_mem h)⟩

theorem boundOkAt_end (ds : Str) (hne : ds ≠ []) (hd : ∀ c ∈ ds, isDigitCh c = true) :
    boundOkAt ds ds.length = true := by
  have hlen : 0 < ds.length := List.length_pos.mpr hne
  obtain ⟨c, hc, hcd⟩ := all_digits_get ds hd (ds.length - 1) (by omega)
  unfold boundOkAt
  rw [hc, List.get?_len_le (le_refl _)]
  simp [digit_word c hcd]

theorem boundOkAt_mid (ds : Str) (hd : ∀ c ∈ ds, isDigitCh c = true) (ℓ : Nat)
    (h1 : 1 ≤ ℓ) (h2 : ℓ < ds.length) : boundOkAt ds ℓ = false := by
  obtain ⟨c, hc, hcd⟩ := all_digits_get ds hd (ℓ - 1) (by omega)
  obtain ⟨c2, hc2, hcd2⟩ := all_digits_get ds hd ℓ h2
  unfold boundOkAt
  rw [hc, hc2]
  simp [digit_word c hcd, digit_word c2 hcd2]

theorem leadCount_all (ds : Str) (hd : ∀ c ∈ ds, isDigitCh c = true) :
    leadCount isDigitCh ds = ds.length := by
  unfold leadCount
  rw [List.takeWhile_eq_self_iff.mpr hd]

theorem get_dot_ne (ds : Str) (hd : ∀ c ∈ ds, isDigitCh c = true) (i : Nat) :
    (ds.get? i == some '.') = false := by
  cases hi : ds.get? i with
  | none => rfl
  | some c =>
    have hcd := hd c (List.get?_mem hi)
    have h1 : (c == '.') = false := digit_ne c '.' hcd (by decide)
    simpa using h1

theorem numExpTail_all_digits (ds : Str) (hd : ∀ c ∈ ds, isDigitCh c = true) (p : Nat) :
    numExpTail ds p = none := by
  unfold numExpTail
  cases hp : ds.get? p with
  | none => rfl
  | some c =>
    have hcd := hd c (List.get?_mem hp)
    have h1 : (c == 'e') = false := digit_ne c 'e' hcd (by decide)
    have h2 : (c == 'E') = false := digit_ne c 'E' hcd (by decide)
    simp [h1, h2]

theorem leadCount_le (p : Char → Bool) (s : Str) : leadCount p s ≤ s.length := by
  unfold leadCount
  induction s with
  | nil => simp
  | cons c cs ih =>
    by_cases hc : p c = true
    · simpa [List.takeWhile_cons, hc] using ih
    · simp [List.takeWhile_cons, hc]

theorem matchNumber_all_digits (ds : Str) (hne : ds ≠ [])
    (hd : ∀ c ∈ ds, isDigitCh c = true) :
    matchNumber none ds = some ds.length := by
  have hlen : 0 < ds.length := List.length_pos.mpr hne
  have halt1 : numAltHex ds = none := by
    unfold numAltHex
    cases ds with
    | nil => rfl
    | cons c0 t =>
      cases t with
      | nil => rfl
      | cons c1 t2 =>
        have hx : isDigitCh c1 = true := hd c1 (by simp)
        have h1 : (c1 == 'x') = false := digit_ne c1 'x' hx (by decide)
        have h2 : (c1 == 'X') = false := digit_ne c1 'X' hx (by decide)
        simp [h1, h2]
  have halt3 : numAltDot ds = none := by
    unfold numAltDot
    rw [leadCount_all ds hd, if_neg (by omega)]
    apply List.findSome?_eq_none_iff.mpr
    intro dd _
    rw [get_dot_ne ds hd dd]
    simp
  have halt4 : numAltExp ds = none := by
    unfold numAltExp
    rw [leadCount_all ds hd, if_neg (by omega)]
    apply List.findSome?_eq_none_iff.mpr
    intro dd _
    simp only [get_dot_ne ds hd dd, Bool.false_eq_true, if_false]
    apply List.findSome?_eq_none_iff.mpr
    intro p _
    exact numExpTail_all_digits ds hd p
  have halt5 : numAltPlain ds = some ds.length := by
    unfold numAltPlain
    rw [leadCount_all ds hd, if_neg (by omega)]
    obtain ⟨k, hk⟩ : ∃ k, ds.length = k + 1 := ⟨ds.length - 1, by omega⟩
    rw [hk]
    obtain ⟨tl, htl⟩ := descPos_head k
    rw [htl]
    apply findSome?_cons_some
    simp only [get_dot_ne ds hd (k + 1), Bool.false_eq_true, if_false]
    unfold firstBound
    have hb : boundOkAt ds (k + 1) = true := by
      rw [← hk]
      exact boundOkAt_end ds hne hd
    rw [List.find?_cons_of_pos _ hb]
  unfold matchNumber
  simp only [halt1]
  cases hds : ds with
  | nil => exact absurd hds hne
  | cons c0 t =>
    subst hds
    by_cases h0 : (c0 == '0') = true
    · have hoct : leadCount isOctCh t ≤ t.length := leadCount_le _ _
      by_cases hm : leadCount isOctCh t = t.length
      · have halt2 : numAltOct (c0 :: t) = some (c0 :: t).length := by
          simp only [numAltOct]
          rw [if_pos h0, hm]
          obtain ⟨tl, htl⟩ := descFrom_head 1 t.length
          rw [htl]
          unfold firstBound
          have hb : boundOkAt (c0 :: t) (1 + t.length) = true := by
            have := boundOkAt_end (c0 :: t) hne hd
            simpa [Nat.add_comm] using this
          rw [List.find?_cons_of_pos _ hb]
          simp [Nat.add_comm]
        rw [halt2]
        simp
      · have halt2 : numAltOct (c0 :: t) = none := by
          simp only [numAltOct]
          rw [if_pos h0]
          unfold firstBound
          rw [List.find?_eq_none]
          intro x hx
          obtain ⟨hx1, hx2⟩ := mem_descFrom _ _ _ hx
          rw [boundOkAt_mid (c0 :: t) hd x hx1 (by simp; omega)]
          simp
        rw [halt2, halt3, halt4, halt5]
        simp
    · have halt2 : numAltOct (c0 :: t) = none := by
        simp only [numAltOct]
        rw [if_neg (by simpa using h0)]
      rw [halt2, halt3, halt4, halt5]
      simp

theorem ne_of_digit_mismatch (c d : Char) (hc : isDigitCh c = false)
    (hd : isDigitCh d = true) : (c == d) = false := by
  rw [beq_symm_char]
  exact digit_ne d c hd hc

theorem leadCount_nondigit_head (c : Char) (cs : Str) (hc : isDigitCh c = false) :
    leadCount isDigitCh (c :: cs) = 0 := by
  simp [leadCount, List.takeWhile_cons, hc]

theorem matchNumber_nondigit_head (c : Char) (cs : Str) (hc : isDigitCh c = false) :
    matchNumber none (c :: cs) = none := by
  have h0 : (c == '0') = false := ne_of_digit_mismatch c '0' hc (by decide)
  have hlead := leadCount_nondigit_head c cs hc
  have halt1 : numAltHex (c :: cs) = none := by
    cases cs with
    | nil => rfl
    | cons c1 cs2 => simp [numAltHex, h0]
  have halt2 : numAltOct (c :: cs) = none := by
    simp [numAltOct, h0]
  have halt3 : numAltDot (c :: cs) = none := by
    unfold numAltDot
    rw [hlead]
    simp
  have halt4 : numAltExp (c :: cs) = none := by
    unfold numAltExp
    rw [hlead]
    simp
  have halt5 : numAltPlain (c :: cs) = none := by
    unfold numAltPlain
    rw [hlead]
    simp
  unfold matchNumber
  rw [halt1, halt2, halt3, halt4, halt5]
  rfl

theorem strBody_clean (q : Char) (content : Str)
    (h : ∀ c ∈ content, (c == q) = false ∧ (c == '\\') = false) :
    strBody q (content ++ [q]) = some (content.length + 1) := by
  induction content with
  | nil => simp [strBody]
  | cons c cs ih =>
    obtain ⟨h1, h2⟩ := h c (by simp)
    have hrest := ih (fun x hx => h x (by simp [hx]))
    show strBody q (c :: (cs ++ [q])) = some ((c :: cs).length + 1)
    conv_lhs => unfold strBody
    rw [h1, h2]
    simp only [Bool.false_eq_true, if_false]
    rw [hrest]
    rfl

theorem matchString_clean (content : Str)
    (h : ∀ c ∈ content, (c == '"') = false ∧ (c == '\\') = false) :
    matchString ('"' :: (content ++ ['"'])) = some (content.length + 2) := by
  simp only [matchString]
  rw [strBody_clean '"' content h]
  simp

theorem tokenizeCode_single (mode : Mode) (s tok : Str) (hne : s ≠ [])
    (hstep : lexStep mode none s = (some tok, s.length)) :
    tokenizeCode s mode = [tok] := by
  unfold tokenizeCode
  cases s with
  | nil => exact absurd rfl hne
  | cons c cs =>
    show lexLoop mode (cs.length + 1) none (c :: cs) = [tok]
    simp only [lexLoop, hstep]
    have hmax : max (c :: cs).length 1 = cs.length + 1 := by
      simp [Nat.max_eq_left]
    rw [hmax]
    have hdrop : (c :: cs).drop (cs.length + 1) = [] := by
      apply List.drop_eq_nil_of_le
      simp
    rw [hdrop]
    cases hfuel : cs.length with
    | zero => rfl
    | succ k => rfl

/-- Claim C9 counterexample: the run's default sensitivity flags leave
`ignore_numeric_literals` and `ignore_string_literals` unset, yet the
tokenizer used for comparison emits the class tokens `NUM` and `STR`
instead of the raw literal text. -/
theorem claim_C9_counterexample :
    getSensitivityConfig.ignore_numeric_literals = false ∧
      getSensitivityConfig.ignore_string_literals = false ∧
      tokenizeToList (chars "x = 5 ;") Mode.literal =
        [chars "x", chars "=", chars "NUM", chars ";"] ∧
      tokenizeToList (chars "x = \"ab\" ;") Mode.literal =
        [chars "x", chars "=", chars "STR", chars ";"] := by
  refine ⟨rfl, rfl, ?_, ?_⟩ <;> decide

/-- Claim C9 (amended): the comparison tokenizer `_tokenize_code`
normalizes literals unconditionally — every number literal is emitted as
`NUM` and every string literal as `STR`, in both modes, independent of
the sensitivity flags (which only the unused sensitivity-aware tokenizer
honours). -/
theorem claim_C9_always_normalized :
    (∀ (mode : Mode) (ds : Str), ds ≠ [] → (∀ c ∈ ds, isDigitCh c = true) →
      tokenizeCode ds mode = [chars "NUM"]) ∧
    (∀ (mode : Mode) (content : Str),
      (∀ c ∈ content, (c == '"') = false ∧ (c == '\\') = false) →
      tokenizeCode ('"' :: (content ++ ['"'])) mode = [chars "STR"]) := by
  constructor
  · intro mode ds hne hd
    apply tokenizeCode_single mode ds (chars "NUM") hne
    cases ds with
    | nil => exact absurd rfl hne
    | cons c cs =>
      have hc : isDigitCh c = true := hd c (by simp)
      simp only [lexStep]
      rw [digit_not_space c hc]
      simp only [Bool.false_eq_true, if_false]
      rw [matchOperator_none_of c cs (opHeads_not_digit c hc)]
      rw [matchNumber_all_digits (c :: cs) hne hd]
  · intro mode content h
    apply tokenizeCode_single mode _ (chars "STR") (by simp)
    have hq : isSpaceCh '"' = false := by decide
    have hop : matchOperator ('"' :: (content ++ ['"'])) = none := by
      apply matchOperator_none_of
      intro op hop
      have hall : operatorsSorted.all
          (fun op => !op.isEmpty && !(op.headD ' ' == '"')) = true := by decide
      rw [List.all_eq_true] at hall
      have h1 := hall op hop
      cases op with
      | nil => simp at h1
      | cons o ot =>
        simp only [List.headD_cons, Bool.and_eq_true, Bool.not_eq_true'] at h1
        exact ⟨o, ot, rfl, h1.2⟩
    show lexStep mode none ('"' :: (content ++ ['"'])) = _
    simp only [lexStep]
    rw [hq]
    simp only [Bool.false_eq_true, if_false]
    rw [hop]
    rw [matchNumber_nondigit_head '"' (content ++ ['"']) (by decide)]
    rw [matchString_clean content h]
    simp

theorem claim_C9_witness :
    tokenizeCode (chars "07") Mode.literal = [chars "NUM"] ∧
      tokenizeCode ('"' :: (chars "ab" ++ ['"'])) Mode.literal = [chars "STR"] :=
  ⟨claim_C9_always_normalized.1 Mode.literal (chars "07") (by decide) (by decide),
    claim_C9_always_normalized.2 Mode.literal (chars "ab") (by decide)⟩

/-! ## Ordering of joined strings, the cache, and similarity symmetry -/

theorem lexLt_irrefl (x : Str) : lexLt x x = false := by
  induction x with
  | nil => rfl
  | cons a as ih => simp [lexLt, lt_irrefl, ih]

theorem lexLt_asymm : ∀ x y : Str, lexLt x y = true → lexLt y x = false
  | [], [], h => by simp [lexLt] at h
  | [], _ :: _, _ => rfl
  | _ :: _, [], h => by simp [lexLt] at h
  | a :: as, b :: bs, h => by
    simp only [lexLt] at h ⊢
    by_cases hab : a < b
    · rw [if_neg (lt_asymm hab), if_pos hab]
    · rw [if_neg hab] at h
      by_cases hba : b < a
      · rw [if_pos hba] at h
        simp at h
      · rw [if_neg hba] at h ⊢
        rw [if_neg hab]
        exact lexLt_asymm as bs h

theorem lexLt_total : ∀ x y : Str, x ≠ y → (lexLt x y = true ∨ lexLt y x = true)
  | [], [], h => absurd rfl h
  | [], _ :: _, _ => Or.inl rfl
  | _ :: _, [], _ => Or.inr rfl
  | a :: as, b :: bs, h => by
    simp only [lexLt]
    rcases lt_trichotomy a b with hab | hab | hab
    · left
      rw [if_pos hab]
    · subst hab
      have hne : as ≠ bs := by
        intro he
        exact h (by rw [he])
      rcases lexLt_total as bs hne with h2 | h2
      · left
        rw [if_neg (lt_irrefl a), if_neg (lt_irrefl a)]
        exact h2
      · right
        rw [if_neg (lt_irrefl a), if_neg (lt_irrefl a)]
        exact h2
    · right
      rw [if_pos hab]

theorem sortPair_self (x : Str) : sortPair x x = (x, x) := by
  unfold sortPair lexLe
  rw [lexLt_irrefl]
  simp

theorem sortPair_comm (x y : Str) : sortPair x y = sortPair y x := by
  by_cases hxy : x = y
  · subst hxy
    rfl
  · unfold sortPair lexLe
    rcases lexLt_total x y hxy with h | h
    · rw [lexLt_asymm x y h, h]
      simp
    · rw [lexLt_asymm y x h, h]
      simp

theorem alookup_append_hit (cache : Cache) (k : Str × Str) (v : ℚ)
    (h : alookup cache k = none) : alookup (cache ++ [(k, v)]) k = some v := by
  unfold alookup at h ⊢
  rw [List.find?_append]
  cases hf : cache.find? (fun e => e.1 = k) with
  | none => simp [List.find?]
  | some e => rw [hf] at h; simp at h

/-- Sequential symmetry of `_calculate_similarity`: within one detector,
computing `(t2, t1)` right after `(t1, t2)` returns the same value — the
sorted cache key makes the second call a cache hit. -/
theorem calcSimilarity_seq_symm (cache : Cache) (t1 t2 : List Str) :
    (calculateSimilarity (calculateSimilarity cache t1 t2).2 t2 t1).1 =
      (calculateSimilarity cache t1 t2).1 := by
  by_cases he : t1 = [] ∨ t2 = []
  · have he2 : t2 = [] ∨ t1 = [] := he.symm
    unfold calculateSimilarity
    rw [if_pos he]
    simp only
    rw [if_pos he2]
  · have he2 : ¬(t2 = [] ∨ t1 = []) := fun h => he h.symm
    unfold calculateSimilarity
    rw [if_neg he]
    simp only
    rw [sortPair_comm (joinT t2) (joinT t1)]
    cases hf : alookup cache (sortPair (joinT t1) (joinT t2)) with
    | some v =>
      simp only
      rw [if_neg he2, hf]
    | none =>
      simp only
      rw [if_neg he2]
      rw [alookup_append_hit cache _ _ hf]

/-- Claim C7: for every pair of file paths, the similarity
`compare_two_files` computes for `(a, b)` equals the similarity it
computes for `(b, a)` — the cache key is the sorted pair of joined token
strings, so within a detector both orders yield one value. -/
theorem claim_C7_symmetry (fs : FileSys) (template : List Str) (mode : Mode)
    (cache : Cache) (p1 p2 : Str) :
    (compareTwoFiles fs template mode
        (compareTwoFiles fs template mode cache p1 p2).2 p2 p1).1 =
      (compareTwoFiles fs template mode cache p1 p2).1 := by
  unfold compareTwoFiles
  cases h1 : (isValidForComparison fs template mode p1).2 with
  | none =>
    cases h2 : (isValidForComparison fs template mode p2).2 with
    | none => simp [h1, h2]
    | some t2 => simp [h1, h2]
  | some t1 =>
    cases h2 : (isValidForComparison fs template mode p2).2 with
    | none => simp [h1, h2]
    | some t2 =>
      simp only [h1, h2]
      by_cases hc : (isValidForComparison fs template mode p1).1 = false ∨
          (isValidForComparison fs template mode p2).1 = false ∨ t1 = [] ∨ t2 = []
      · have hc2 : (isValidForComparison fs template mode p2).1 = false ∨
            (isValidForComparison fs template mode p1).1 = false ∨ t2 = [] ∨ t1 = [] := by
          tauto
        rw [if_pos hc, if_pos hc2]
      · have hc2 : ¬((isValidForComparison fs template mode p2).1 = false ∨
            (isValidForComparison fs template mode p1).1 = false ∨ t2 = [] ∨ t1 = []) := by
          tauto
        rw [if_neg hc, if_neg hc2]
        exact calcSimilarity_seq_symm cache t1 t2

/-! ## Claim C10 : invalid files compare to zero and never appear in cases -/

theorem isValid_of_fsRead_none (fs : FileSys) (template : List Str) (mode : Mode)
    (p : Str) (h : fsRead fs p = none) :
    isValidForComparison fs template mode p = (false, none) := by
  unfold isValidForComparison
  rw [h]

theorem isValid_false_of_eff_short (fs : FileSys) (template : List Str) (mode : Mode)
    (p : Str) (t : List Str) (heff : effectiveTokens fs template mode p = some t)
    (hshort : t.length < MIN_TOKEN_COUNT) :
    (isValidForComparison fs template mode p).1 = false := by
  unfold effectiveTokens at heff
  cases hread : fsRead fs p with
  | none => rw [hread] at heff; simp at heff
  | some code =>
    rw [hread] at heff
    simp only [Option.some.injEq] at heff
    unfold isValidForComparison
    rw [hread]
    simp only
    by_cases hlen : (tokenizeToList code mode).length < MIN_TOKEN_COUNT
    · rw [if_pos hlen]
    · rw [if_neg hlen]
      by_cases htc : template ≠ [] ∧ tokenizeToList code mode ≠ []
      · rw [if_pos htc] at heff ⊢
        rw [if_pos (by rw [heff]; exact hshort)]
      · rw [if_neg htc] at heff ⊢
        rw [heff] at hlen
        exact absurd hshort hlen

theorem compare_zero_of_invalid (fs : FileSys) (template : List Str) (mode : Mode)
    (cache : Cache) (p1 p2 : Str)
    (h : (isValidForComparison fs template mode p1).1 = false ∨
      (isValidForComparison fs template mode p2).1 = false) :
    compareTwoFiles fs template mode cache p1 p2 = (0, cache) := by
  unfold compareTwoFiles
  cases h1 : (isValidForComparison fs template mode p1).2 with
  | none => simp [h1]
  | some t1 =>
    cases h2 : (isValidForComparison fs template mode p2).2 with
    | none => simp [h1, h2]
    | some t2 =>
      simp only [h1, h2]
      rw [if_pos (by tauto)]

theorem dinsert_mem (l : List (Str × Str)) (k v : Str) (x : Str × Str)
    (h : x ∈ dinsert l k v) : x ∈ l ∨ x = (k, v) := by
  induction l with
  | nil => simp [dinsert] at h; right; exact h
  | cons e t ih =>
    obtain ⟨k1, v1⟩ := e
    unfold dinsert at h
    by_cases hk : k1 = k
    · rw [if_pos hk] at h
      rcases List.mem_cons.mp h with h2 | h2
      · right; rw [h2, hk]
      · left; exact List.mem_cons_of_mem _ h2
    · rw [if_neg hk] at h
      rcases List.mem_cons.mp h with h2 | h2
      · left; rw [h2]; exact List.mem_cons_self _ _
      · rcases ih h2 with h3 | h3
        · left; exact List.mem_cons_of_mem _ h3
        · right; exact h3

theorem collect_mem_valid (fs : FileSys) (template : List Str) (mode : Mode)
    (dir : Str) : ∀ (listing acc : List (Str × Str)),
    (∀ x ∈ acc, (isValidForComparison fs template mode x.2).1 = true) →
    ∀ x ∈ collectStudentFiles fs template mode dir acc listing,
      (isValidForComparison fs template mode x.2).1 = true := by
  intro listing
  induction listing with
  | nil => intro acc hacc x hx; exact hacc x hx
  | cons e rest ih =>
    obtain ⟨name, code⟩ := e
    intro acc hacc x hx
    unfold collectStudentFiles at hx
    by_cases ha : endsWithAccepted name = true
    · rw [if_pos ha] at hx
      by_cases hv : (isValidForComparison fs template mode (pjoin dir name)).1 = true
      · rw [if_pos hv] at hx
        refine ih _ ?_ x hx
        intro y hy
        rcases dinsert_mem _ _ _ _ hy with h2 | h2
        · exact hacc y h2
        · rw [h2]
          exact hv
      · rw [if_neg hv] at hx
        exact ih acc hacc x hx
    · rw [if_neg ha] at hx
      exact ih acc hacc x hx

theorem pairsOf_mem : ∀ (l : List α) (p : α × α), p ∈ pairsOf l → p.1 ∈ l ∧ p.2 ∈ l := by
  intro l
  induction l with
  | nil => intro p hp; simp [pairsOf] at hp
  | cons x xs ih =>
    intro p hp
    unfold pairsOf at hp
    rcases List.mem_append.mp hp with h | h
    · obtain ⟨y, hy, hxy⟩ := List.mem_map.mp h
      rw [← hxy]
      exact ⟨List.mem_cons_self _ _, List.mem_cons_of_mem _ hy⟩
    · obtain ⟨h1, h2⟩ := ih p h
      exact ⟨List.mem_cons_of_mem _ h1, List.mem_cons_of_mem _ h2⟩

theorem pairLoop_case_mem (fs : FileSys) (template : List Str) (mode : Mode)
    (qnum : Nat) :
    ∀ (pairs : List ((Str × Str) × (Str × Str))) (cache : Cache),
      ∀ c ∈ (pairLoop fs template mode qnum cache pairs).1,
        ∃ pr ∈ pairs, c.student1 = pr.1.1 ∧ c.student2 = pr.2.1 ∧
          c.file1 = pr.1.2 ∧ c.file2 = pr.2.2 ∧ c.question = qnum := by
  intro pairs
  induction pairs with
  | nil => intro cache c hc; simp [pairLoop] at hc
  | cons pr0 rest ih =>
    intro cache c hc
    obtain ⟨⟨s1, p1⟩, s2, p2⟩ := pr0
    unfold pairLoop at hc
    simp only at hc
    by_cases ht : SIMILARITY_THRESHOLD ≤ (compareTwoFiles fs template mode cache p1 p2).1
    · rw [if_pos ht] at hc
      rcases List.mem_cons.mp hc with h2 | h2
      · refine ⟨((s1, p1), (s2, p2)), List.mem_cons_self _ _, ?_⟩
        rw [h2]
        exact ⟨rfl, rfl, rfl, rfl, rfl⟩
      · obtain ⟨pr, hpr, hrest⟩ :=
          ih (compareTwoFiles fs template mode cache p1 p2).2 c h2
        exact ⟨pr, List.mem_cons_of_mem _ hpr, hrest⟩
    · rw [if_neg ht] at hc
      obtain ⟨pr, hpr, hrest⟩ :=
        ih (compareTwoFiles fs template mode cache p1 p2).2 c hc
      exact ⟨pr, List.mem_cons_of_mem _ hpr, hrest⟩

/-- Claim C10: `compare_two_files` returns `0.0` (and, being a total
function of the model, raises nothing) whenever either path does not
exist or either file's post-subtraction token stream is shorter than
`MIN_TOKEN_COUNT`; and every emitted case of a question only ever
references files that passed the validity gate, so such a pair yields no
case (the positive threshold `95` exceeds `0`). -/
theorem claim_C10_invalid_zero (fs : FileSys) (template : List Str) (mode : Mode)
    (cache : Cache) (p1 p2 : Str) (listing : List (Str × Str)) (dir : Str)
    (qnum : Nat) :
    ((fsRead fs p1 = none ∨ fsRead fs p2 = none ∨
        (∃ t, effectiveTokens fs template mode p1 = some t ∧
          t.length < MIN_TOKEN_COUNT) ∨
        (∃ t, effectiveTokens fs template mode p2 = some t ∧
          t.length < MIN_TOKEN_COUNT)) →
      compareTwoFiles fs template mode cache p1 p2 = (0, cache)) ∧
    (∀ c ∈ detectQuestion listing dir template mode qnum,
      (isValidForComparison (listing.map (fun e => (pjoin dir e.1, e.2)))
        template mode c.file1).1 = true ∧
      (isValidForComparison (listing.map (fun e => (pjoin dir e.1, e.2)))
        template mode c.file2).1 = true) := by
  constructor
  · intro h
    apply compare_zero_of_invalid
    rcases h with h | h | ⟨t, ht, hs⟩ | ⟨t, ht, hs⟩
    · left
      rw [isValid_of_fsRead_none fs template mode p1 h]
    · right
      rw [isValid_of_fsRead_none fs template mode p2 h]
    · exact Or.inl (isValid_false_of_eff_short fs template mode p1 t ht hs)
    · exact Or.inr (isValid_false_of_eff_short fs template mode p2 t ht hs)
  · intro c hc
    unfold detectQuestion detectQuestionFull at hc
    simp only at hc
    by_cases hlen : (collectStudentFiles (listing.map (fun e => (pjoin dir e.1, e.2)))
        template mode dir [] listing).length < 2
    · rw [if_pos hlen] at hc
      simp at hc
    · rw [if_neg hlen] at hc
      obtain ⟨pr, hpr, _, _, hf1, hf2, _⟩ :=
        pairLoop_case_mem _ template mode qnum _ [] c hc
      obtain ⟨hm1, hm2⟩ := pairsOf_mem _ pr hpr
      have hvac : ∀ x ∈ ([] : List (Str × Str)),
          (isValidForComparison (listing.map (fun e => (pjoin dir e.1, e.2)))
            template mode x.2).1 = true :=
        fun x hx => absurd hx (List.not_mem_nil x)
      constructor
      · rw [hf1]
        exact collect_mem_valid _ template mode dir listing [] hvac pr.1 hm1
      · rw [hf2]
        exact collect_mem_valid _ template mode dir listing [] hvac pr.2 hm2

theorem claim_C10_witness :
    compareTwoFiles [] [] Mode.structural [] (chars "a.c") (chars "b.c") = (0, []) :=
  (claim_C10_invalid_zero [] [] Mode.structural [] (chars "a.c") (chars "b.c")
    [] [] 1).1 (Or.inl rfl)

/-! ## The matcher on two equal sequences, and Claim C6 -/

theorem runLen_le (s : Str) : ∀ i, runLen s i ≤ i + 1
  | 0 => by unfold runLen; split <;> omega
  | i + 1 => by
    have := runLen_le s i
    unfold runLen; split <;> omega

theorem runLen_zero_of_not (s : Str) (i : Nat) (h : nonPop s i = false) :
    runLen s i = 0 := by
  cases i <;> simp [runLen, h]

theorem runLen_succ_rPrev (s : Str) (i : Nat) (h : nonPop s i = true) :
    runLen s i = rPrev s i + 1 := by
  cases i <;> simp [runLen, rPrev, h]

theorem enumFrom_succ_map : ∀ (b : Str) (k : Nat),
    List.enumFrom (k + 1) b = (List.enumFrom k b).map (Prod.map Nat.succ id)
  | [], _ => rfl
  | x :: xs, k => by
    simp only [List.enumFrom, List.map_cons]
    rw [enumFrom_succ_map xs (k + 1)]
    rfl

theorem positionsOf_cons (c x : Char) (xs : Str) :
    positionsOf c (x :: xs) =
      (if x == c then [0] else []) ++ (positionsOf c xs).map Nat.succ := by
  unfold positionsOf
  rw [List.enum_cons]
  have h1 : List.enumFrom 1 xs = (xs.enum).map (Prod.map Nat.succ id) := by
    have := enumFrom_succ_map xs 0
    simpa [List.enum] using this
  rw [h1, List.filter_cons, List.filter_map]
  have h2 : ((fun p => p.2 == c) ∘ Prod.map Nat.succ (id : Char → Char)) =
      (fun (p : Nat × Char) => p.2 == c) := by
    funext p; cases p; rfl
  rw [h2]
  by_cases hx : (x == c) = true
  · simp [hx, List.map_map, Function.comp, Prod.map]
  · simp only [Bool.not_eq_true] at hx
    simp [hx, List.map_map, Function.comp, Prod.map]

theorem positionsOf_eq (c : Char) : ∀ (b : Str),
    positionsOf c b = (List.range b.length).filter (fun j => b.get? j == some c)
  | [] => rfl
  | x :: xs => by
    rw [positionsOf_cons, positionsOf_eq c xs, List.length_cons,
      List.range_succ_eq_map, List.filter_cons, List.filter_map]
    have h2 : ((fun j => (x :: xs).get? j == some c) ∘ Nat.succ) =
        (fun j => xs.get? j == some c) := by
      funext j; rfl
    rw [h2]
    by_cases hx : (x == c) = true
    · have : ((x :: xs).get? 0 == some c) = true := by
        simpa using hx
      simp [hx, this]
    · simp only [Bool.not_eq_true] at hx
      have : ((x :: xs).get? 0 == some c) = false := by
        simpa using hx
      simp [hx, this]

theorem mem_b2j (b : Str) (c : Char) (j : Nat) (h : j ∈ b2j b c) :
    j < b.length ∧ b.get? j = some c ∧ isPopular b c = false := by
  unfold b2j at h
  by_cases hp : isPopular b c = true
  · simp [hp] at h
  · simp only [Bool.not_eq_true] at hp
    rw [if_neg (by simp [hp]), positionsOf_eq] at h
    rcases List.mem_filter.mp h with ⟨hr, hq⟩
    exact ⟨List.mem_range.mp hr, beq_iff_eq.mp hq, hp⟩

theorem nonPop_of_mem_b2j (b : Str) (c : Char) (j : Nat) (h : j ∈ b2j b c) :
    nonPop b j = true := by
  rcases mem_b2j b c j h with ⟨_, hg, hp⟩
  unfold nonPop
  rw [hg]
  show (!isPopular b c) = true
  rw [hp]
  rfl

theorem b2j_split (s : Str) (c : Char) (i : Nat) (hi : i < s.length)
    (hc : s.get? i = some c) (hp : isPopular s c = false) :
    b2j s c = ((List.range i).filter (fun j => s.get? j == some c)) ++
      i :: ((List.range' (i + 1) (s.length - (i + 1))).filter
        (fun j => s.get? j == some c)) := by
  unfold b2j
  rw [if_neg (by simp [hp]), positionsOf_eq]
  have hsplit : List.range s.length =
      List.range' 0 i ++ List.range' i (s.length - i) := by
    rw [List.range_eq_range']
    have h0 := List.range'_append_1 0 i (s.length - i)
    rw [Nat.zero_add] at h0
    rw [h0]
    congr 1
    omega
  have hstep : List.range' i (s.length - i) =
      i :: List.range' (i + 1) (s.length - (i + 1)) := by
    have : s.length - i = (s.length - (i + 1)) + 1 := by omega
    rw [this, List.range'_succ]
  rw [hsplit, hstep, List.filter_append, List.filter_cons,
    ← List.range_eq_range']
  have hci : (s.get? i == some c) = true := beq_iff_eq.mpr hc
  rw [hci]
  simp

theorem innerLoop_cons (i blo bhi : Nat) (j2 : Nat → Nat) (j : Nat) (L : List Nat)
    (nj : Nat → Nat) (best : Best) (h1 : ¬ j < blo) (h2 : ¬ bhi ≤ j) :
    innerLoop i blo bhi j2 (j :: L) nj best =
      innerLoop i blo bhi j2 L (fun x => if x = j then kOf j2 j else nj x)
        (if best.size < kOf j2 j then
          Best.mk (i + 1 - kOf j2 j) (j + 1 - kOf j2 j) (kOf j2 j) else best) := by
  cases j with
  | zero =>
    show (if 0 < blo then _ else if bhi ≤ 0 then _ else _) = _
    rw [if_neg h1, if_neg h2]
    rfl
  | succ t =>
    show (if t + 1 < blo then _ else if bhi ≤ t + 1 then _ else _) = _
    rw [if_neg h1, if_neg h2]
    rfl

theorem innerLoop_low (s : Str) (i : Nat) (j2 : Nat → Nat) (best : Best)
    (hin : i ≤ s.length)
    (hC1 : ∀ t, j2 t ≤ runLen s t)
    (hC3 : ∀ t, j2 t ≤ rPrev s i)
    (hD : ∀ t, t < i → runLen s t ≤ best.size)
    (hni : nonPop s i = true) :
    ∀ (L : List Nat) (nj : Nat → Nat),
      (∀ j ∈ L, j < i ∧ nonPop s j = true) →
      ∃ nj2, innerLoop i 0 s.length j2 L nj best = (nj2, best) ∧
        ∀ t, nj2 t = nj t ∨
          (t < i ∧ nj2 t ≤ runLen s t ∧ nj2 t ≤ runLen s i)
  | [], nj, _ => ⟨nj, rfl, fun t => Or.inl rfl⟩
  | j :: L, nj, hmem => by
    obtain ⟨hji, hnj⟩ := hmem j (List.mem_cons_self j L)
    have hjn : j < s.length := lt_of_lt_of_le hji hin
    rw [innerLoop_cons i 0 s.length j2 j L nj best (Nat.not_lt_zero j) (by omega)]
    have hk1 : kOf j2 j ≤ runLen s j := by
      cases j with
      | zero => rw [kOf]; unfold runLen; rw [if_pos hnj]
      | succ t => rw [kOf]; unfold runLen; rw [if_pos hnj]; exact Nat.succ_le_succ (hC1 t)
    have hk2 : kOf j2 j ≤ runLen s i := by
      rw [runLen_succ_rPrev s i hni]
      cases j with
      | zero => rw [kOf]; omega
      | succ t => rw [kOf]; exact Nat.succ_le_succ (hC3 t)
    have hnoupd : ¬ best.size < kOf j2 j := by
      have : kOf j2 j ≤ best.size := le_trans hk1 (hD j hji)
      omega
    rw [if_neg hnoupd]
    obtain ⟨nj2, heq, hprop⟩ := innerLoop_low s i j2 best hin hC1 hC3 hD hni L
      (fun x => if x = j then kOf j2 j else nj x)
      (fun q hq => hmem q (List.mem_cons_of_mem j hq))
    refine ⟨nj2, heq, fun t => ?_⟩
    rcases hprop t with h | h
    · rw [h]
      by_cases ht : t = j
      · subst ht
        rw [if_pos rfl]
        exact Or.inr ⟨hji, hk1, hk2⟩
      · rw [if_neg ht]
        exact Or.inl rfl
    · exact Or.inr h

theorem innerLoop_high (s : Str) (i : Nat) (j2 : Nat → Nat) (best : Best)
    (hC1 : ∀ t, j2 t ≤ runLen s t)
    (hC3 : ∀ t, j2 t ≤ rPrev s i)
    (hbs : runLen s i ≤ best.size)
    (hni : nonPop s i = true) :
    ∀ (L : List Nat) (nj : Nat → Nat),
      (∀ j ∈ L, i < j ∧ j < s.length ∧ nonPop s j = true) →
      ∃ nj2, innerLoop i 0 s.length j2 L nj best = (nj2, best) ∧
        ∀ t, nj2 t = nj t ∨
          (i < t ∧ nj2 t ≤ runLen s t ∧ nj2 t ≤ runLen s i)
  | [], nj, _ => ⟨nj, rfl, fun t => Or.inl rfl⟩
  | j :: L, nj, hmem => by
    obtain ⟨hij, hjn, hnj⟩ := hmem j (List.mem_cons_self j L)
    rw [innerLoop_cons i 0 s.length j2 j L nj best (Nat.not_lt_zero j) (by omega)]
    have hk1 : kOf j2 j ≤ runLen s j := by
      cases j with
      | zero => rw [kOf]; unfold runLen; rw [if_pos hnj]
      | succ t => rw [kOf]; unfold runLen; rw [if_pos hnj]; exact Nat.succ_le_succ (hC1 t)
    have hk2 : kOf j2 j ≤ runLen s i := by
      rw [runLen_succ_rPrev s i hni]
      cases j with
      | zero => rw [kOf]; omega
      | succ t => rw [kOf]; exact Nat.succ_le_succ (hC3 t)
    have hnoupd : ¬ best.size < kOf j2 j := by
      have : kOf j2 j ≤ best.size := le_trans hk2 hbs
      omega
    rw [if_neg hnoupd]
    obtain ⟨nj2, heq, hprop⟩ := innerLoop_high s i j2 best hC1 hC3 hbs hni L
      (fun x => if x = j then kOf j2 j else nj x)
      (fun q hq => hmem q (List.mem_cons_of_mem j hq))
    refine ⟨nj2, heq, fun t => ?_⟩
    rcases hprop t with h | h
    · rw [h]
      by_cases ht : t = j
      · subst ht
        rw [if_pos rfl]
        exact Or.inr ⟨hij, hk1, hk2⟩
      · rw [if_neg ht]
        exact Or.inl rfl
    · exact Or.inr h

theorem innerLoop_append (i blo bhi : Nat) (j2 : Nat → Nat) :
    ∀ (L M : List Nat) (nj : Nat → Nat) (best : Best),
      (∀ j ∈ L, j < bhi) →
      innerLoop i blo bhi j2 (L ++ M) nj best =
        innerLoop i blo bhi j2 M
          (innerLoop i blo bhi j2 L nj best).1
          (innerLoop i blo bhi j2 L nj best).2
  | [], M, nj, best, _ => rfl
  | j :: L, M, nj, best, hmem => by
    have hjb : j < bhi := hmem j (List.mem_cons_self j L)
    by_cases hlo : j < blo
    · have h1 : innerLoop i blo bhi j2 ((j :: L) ++ M) nj best =
          innerLoop i blo bhi j2 (L ++ M) nj best := by
        show (if j < blo then _ else _) = _
        rw [if_pos hlo]
        rfl
      have h2 : innerLoop i blo bhi j2 (j :: L) nj best =
          innerLoop i blo bhi j2 L nj best := by
        show (if j < blo then _ else _) = _
        rw [if_pos hlo]
      rw [h1, h2]
      exact innerLoop_append i blo bhi j2 L M nj best
        (fun q hq => hmem q (List.mem_cons_of_mem j hq))
    · rw [List.cons_append,
        innerLoop_cons i blo bhi j2 j (L ++ M) nj best hlo (by omega),
        innerLoop_cons i blo bhi j2 j L nj best hlo (by omega)]
      exact innerLoop_append i blo bhi j2 L M _ _
        (fun q hq => hmem q (List.mem_cons_of_mem j hq))

theorem rowStep (s : Str) (i : Nat) (c : Char) (j2 : Nat → Nat) (best : Best)
    (hiN : i < s.length) (hc : s.get? i = some c)
    (hInv : DiagInv s i j2 best) :
    DiagInv s (i + 1) (innerLoop i 0 s.length j2 (b2j s c) (fun _ => 0) best).1
      (innerLoop i 0 s.length j2 (b2j s c) (fun _ => 0) best).2 := by
  obtain ⟨hA, hB, hC1, hC3, hC2, hD⟩ := hInv
  by_cases hp : isPopular s c = true
  · have hb : b2j s c = [] := by unfold b2j; rw [if_pos hp]
    have hnp : nonPop s i = false := by
      unfold nonPop
      rw [hc]
      show (!isPopular s c) = false
      rw [hp]
      rfl
    rw [hb]
    refine ⟨hA, hB, fun t => Nat.zero_le _, fun t => Nat.zero_le _, ?_, ?_⟩
    · intro t ht
      have hti : t = i := by omega
      subst hti
      show 0 = runLen s t
      rw [runLen_zero_of_not s t hnp]
    · intro t ht
      rcases Nat.lt_succ_iff_lt_or_eq.mp ht with h | h
      · exact hD t h
      · subst h
        rw [runLen_zero_of_not s t hnp]
        exact Nat.zero_le _
  · have hp' : isPopular s c = false := by
      rwa [Bool.not_eq_true] at hp
    have hni : nonPop s i = true := by
      unfold nonPop
      rw [hc]
      show (!isPopular s c) = true
      rw [hp']
      rfl
    have hkdiag : kOf j2 i = runLen s i := by
      cases i with
      | zero =>
        rw [kOf]
        unfold runLen
        rw [if_pos hni]
      | succ t =>
        rw [kOf, hC2 t rfl, runLen_succ_rPrev s (t + 1) hni]
        rfl
    rw [b2j_split s c i hiN hc hp']
    have hmem1 : ∀ j ∈ (List.range i).filter (fun j => s.get? j == some c),
        j < i ∧ nonPop s j = true := by
      intro j hj
      rcases List.mem_filter.mp hj with ⟨hr, hq⟩
      refine ⟨List.mem_range.mp hr, ?_⟩
      unfold nonPop
      rw [beq_iff_eq.mp hq]
      show (!isPopular s c) = true
      rw [hp']
      rfl
    have hmem2 : ∀ j ∈ (List.range' (i + 1) (s.length - (i + 1))).filter
        (fun j => s.get? j == some c),
        i < j ∧ j < s.length ∧ nonPop s j = true := by
      intro j hj
      rcases List.mem_filter.mp hj with ⟨hr, hq⟩
      rcases List.mem_range'_1.mp hr with ⟨h1, h2⟩
      refine ⟨by omega, by omega, ?_⟩
      unfold nonPop
      rw [beq_iff_eq.mp hq]
      show (!isPopular s c) = true
      rw [hp']
      rfl
    rw [innerLoop_append i 0 s.length j2 _ _ (fun _ => 0) best
      (fun j hj => lt_trans (hmem1 j hj).1 hiN)]
    obtain ⟨nj1, heq1, hprop1⟩ := innerLoop_low s i j2 best (le_of_lt hiN)
      hC1 hC3 hD hni _ (fun _ => 0) hmem1
    have heq1a : (innerLoop i 0 s.length j2
        ((List.range i).filter (fun j => s.get? j == some c)) (fun _ => 0) best).1 = nj1 := by
      rw [heq1]
    have heq1b : (innerLoop i 0 s.length j2
        ((List.range i).filter (fun j => s.get? j == some c)) (fun _ => 0) best).2 = best := by
      rw [heq1]
    rw [heq1a, heq1b,
      innerLoop_cons i 0 s.length j2 i _ nj1 best (Nat.not_lt_zero i) (by omega),
      hkdiag]
    set best2 := if best.size < runLen s i then
      Best.mk (i + 1 - runLen s i) (i + 1 - runLen s i) (runLen s i) else best with hbest2
    have hb2r : runLen s i ≤ best2.size := by
      rw [hbest2]
      split
      · exact le_refl _
      · omega
    have hb2m : best.size ≤ best2.size := by
      rw [hbest2]
      split
      · show best.size ≤ runLen s i
        omega
      · exact le_refl _
    have hb2A : best2.i = best2.j := by
      rw [hbest2]
      split
      · rfl
      · exact hA
    have hb2B : best2.i + best2.size ≤ s.length := by
      rw [hbest2]
      split
      · show i + 1 - runLen s i + runLen s i ≤ s.length
        have := runLen_le s i
        omega
      · exact hB
    obtain ⟨njf, heqf, hpropf⟩ := innerLoop_high s i j2 best2 hC1 hC3 hb2r hni _
      (fun x => if x = i then runLen s i else nj1 x) hmem2
    have heqfa : (innerLoop i 0 s.length j2
        ((List.range' (i + 1) (s.length - (i + 1))).filter (fun j => s.get? j == some c))
        (fun x => if x = i then runLen s i else nj1 x) best2).1 = njf := by
      rw [heqf]
    have heqfb : (innerLoop i 0 s.length j2
        ((List.range' (i + 1) (s.length - (i + 1))).filter (fun j => s.get? j == some c))
        (fun x => if x = i then runLen s i else nj1 x) best2).2 = best2 := by
      rw [heqf]
    rw [heqfa, heqfb]
    refine ⟨hb2A, hb2B, ?_, ?_, ?_, ?_⟩
    · intro t
      rcases hpropf t with h | h
      · rw [h]
        by_cases ht : t = i
        · subst ht
          rw [if_pos rfl]
        · rw [if_neg ht]
          rcases hprop1 t with h1 | h1
          · rw [h1]
            exact Nat.zero_le _
          · exact h1.2.1
      · exact h.2.1
    · intro t
      show njf t ≤ runLen s i
      rcases hpropf t with h | h
      · rw [h]
        by_cases ht : t = i
        · subst ht
          rw [if_pos rfl]
        · rw [if_neg ht]
          rcases hprop1 t with h1 | h1
          · rw [h1]
            exact Nat.zero_le _
          · exact h1.2.2
      · exact h.2.2
    · intro t ht
      have hti : t = i := by omega
      subst hti
      rcases hpropf t with h | h
      · rw [h, if_pos rfl]
      · exact absurd h.1 (lt_irrefl t)
    · intro t ht
      rcases Nat.lt_succ_iff_lt_or_eq.mp ht with h | h
      · exact le_trans (hD t h) hb2m
      · subst h
        exact hb2r

theorem outerLoop_diag (s : Str) : ∀ (k i : Nat) (j2 : Nat → Nat) (best : Best),
    i + k = s.length → DiagInv s i j2 best →
    (outerLoop s (b2j s) 0 s.length (List.range' i k) j2 best).i =
      (outerLoop s (b2j s) 0 s.length (List.range' i k) j2 best).j ∧
    (outerLoop s (b2j s) 0 s.length (List.range' i k) j2 best).i +
      (outerLoop s (b2j s) 0 s.length (List.range' i k) j2 best).size ≤ s.length
  | 0, i, j2, best, hik, hInv => by
    show best.i = best.j ∧ best.i + best.size ≤ s.length
    exact ⟨hInv.1, hInv.2.1⟩
  | k + 1, i, j2, best, hik, hInv => by
    have hiN : i < s.length := by omega
    obtain ⟨c, hc⟩ : ∃ c, s.get? i = some c :=
      ⟨s.get ⟨i, hiN⟩, List.get?_eq_get hiN⟩
    have hrow := rowStep s i c j2 best hiN hc hInv
    rcases hres : innerLoop i 0 s.length j2 (b2j s c) (fun _ => 0) best with ⟨nj0, b0⟩
    have hstep : outerLoop s (b2j s) 0 s.length (List.range' i (k + 1)) j2 best =
        outerLoop s (b2j s) 0 s.length (List.range' (i + 1) k) nj0 b0 := by
      rw [List.range'_succ]
      show (let js := match s.get? i with | some c => b2j s c | none => []
            match innerLoop i 0 s.length j2 js (fun _ => 0) best with
            | (nj, best2) => outerLoop s (b2j s) 0 s.length (List.range' (i + 1) k) nj best2) = _
      simp only [hc, hres]
    rw [hstep]
    rw [hres] at hrow
    exact outerLoop_diag s k (i + 1) nj0 b0 (by omega) hrow

theorem extendBack_diag (s : Str) : ∀ (fuel : Nat) (best : Best),
    best.i = best.j → best.i ≤ fuel → best.i + best.size ≤ s.length →
    extendBack s s 0 0 fuel best = Best.mk 0 0 (best.size + best.i)
  | 0, best, hij, hf, _ => by
    have h0 : best.i = 0 := by omega
    unfold extendBack
    cases best with
    | mk bi bj bs =>
      simp only at h0 hij
      subst h0
      subst hij
      rfl
  | fuel + 1, best, hij, hf, hB => by
    cases best with
    | mk bi bj bs =>
      simp only at hij hf hB
      subst hij
      match bi, hf, hB with
      | 0, hf, hB =>
        unfold extendBack
        rfl
      | m + 1, hf, hB =>
        have hmN : m < s.length := by omega
        have hch : chEq (s.get? (m + 1 - 1)) (s.get? (m + 1 - 1)) = true := by
          have : m + 1 - 1 = m := by omega
          rw [this, List.get?_eq_get hmN]
          simp [chEq]
        unfold extendBack
        rw [if_pos]
        · have := extendBack_diag s fuel
            (Best.mk (m + 1 - 1) (m + 1 - 1) (bs + 1)) rfl (by simp; omega)
            (by simp; omega)
          rw [this]
          have harith : bs + 1 + (m + 1 - 1) = bs + (m + 1) := by omega
          rw [harith]
        · simp only [Bool.and_eq_true]
          exact ⟨⟨by simp, by simp⟩, hch⟩

theorem extendFwd_diag (s : Str) : ∀ (fuel sz : Nat),
    sz ≤ s.length → s.length - sz ≤ fuel →
    extendFwd s s s.length s.length fuel (Best.mk 0 0 sz) = Best.mk 0 0 s.length
  | 0, sz, hle, hf => by
    have h0 : sz = s.length := by omega
    subst h0
    rfl
  | fuel + 1, sz, hle, hf => by
    rcases Nat.lt_or_ge sz s.length with hlt | hge
    · have hch : chEq (s.get? (0 + sz)) (s.get? (0 + sz)) = true := by
        have h0 : 0 + sz = sz := by omega
        rw [h0, List.get?_eq_get hlt]
        simp [chEq]
      unfold extendFwd
      rw [if_pos]
      · exact extendFwd_diag s fuel (sz + 1) (by omega) (by omega)
      · simp only [Bool.and_eq_true]
        refine ⟨⟨?_, ?_⟩, hch⟩
        · simp
          omega
        · simp
          omega
    · have h0 : sz = s.length := by omega
      subst h0
      unfold extendFwd
      rw [if_neg]
      simp

theorem flm_self (s : Str) :
    findLongestMatch s s (b2j s) 0 s.length 0 s.length = Best.mk 0 0 s.length := by
  have hInv0 : DiagInv s 0 (fun _ => 0) (Best.mk 0 0 0) :=
    ⟨rfl, Nat.zero_le _, fun t => Nat.zero_le _, fun t => Nat.le_refl _,
      fun t ht => absurd ht (by omega), fun t ht => absurd ht (Nat.not_lt_zero t)⟩
  have houter := outerLoop_diag s s.length 0 (fun _ => 0) (Best.mk 0 0 0)
    (by omega) hInv0
  unfold findLongestMatch
  have hn : s.length - 0 = s.length := by omega
  rw [hn]
  set d := outerLoop s (b2j s) 0 s.length (List.range' 0 s.length)
    (fun _ => 0) (Best.mk 0 0 0) with hd
  show extendFwd s s s.length s.length (s.length + 1)
    (extendBack s s 0 0 d.i d) = Best.mk 0 0 s.length
  have hback := extendBack_diag s d.i d houter.1 (le_refl _) houter.2
  rw [hback]
  have hsz : d.size + d.i ≤ s.length := by
    have := houter.2
    omega
  exact extendFwd_diag s (s.length + 1) (d.size + d.i) hsz (by omega)

theorem mbs_self (s : Str) (fuel : Nat) (h : s ≠ []) :
    matchingBlocksSum s s (b2j s) (fuel + 1) [(0, s.length, 0, s.length)] =
      s.length := by
  have hn : 0 < s.length := List.length_pos.mpr h
  unfold matchingBlocksSum
  rw [flm_self s]
  have hsz : ¬ ((Best.mk 0 0 s.length).size = 0) := by
    show ¬ (s.length = 0)
    omega
  rw [if_neg hsz]
  have hc1 : ¬ ((0 : Nat) < (Best.mk 0 0 s.length).i ∧
      (0 : Nat) < (Best.mk 0 0 s.length).j) := by
    show ¬ ((0 : Nat) < 0 ∧ (0 : Nat) < 0)
    omega
  have hc2 : ¬ ((Best.mk 0 0 s.length).i + (Best.mk 0 0 s.length).size < s.length ∧
      (Best.mk 0 0 s.length).j + (Best.mk 0 0 s.length).size < s.length) := by
    show ¬ (0 + s.length < s.length ∧ 0 + s.length < s.length)
    omega
  rw [if_neg hc1, if_neg hc2]
  show s.length + matchingBlocksSum s s (b2j s) fuel [] = s.length
  cases fuel with
  | zero => rfl
  | succ f => rfl

theorem ratioQ_self (s : Str) : ratioQ s s = 1 := by
  by_cases h : s = []
  · subst h
    rfl
  · have hn : 0 < s.length := List.length_pos.mpr h
    unfold ratioQ
    have ht : ¬ (s.length + s.length = 0) := by omega
    rw [if_neg ht]
    have hfuel : s.length + s.length + 1 = (s.length + s.length) + 1 := rfl
    rw [hfuel, mbs_self s (s.length + s.length) h]
    rw [div_eq_one_iff_eq]
    · push_cast
      ring
    · have : ((s.length + s.length : Nat) : ℚ) ≠ 0 := by
        push_cast
        intro hq
        have : (s.length : ℚ) = 0 := by linarith
        rw [Nat.cast_eq_zero] at this
        omega
      exact this

theorem alookup_mem (cache : Cache) (k : Str × Str) (v : ℚ)
    (h : alookup cache k = some v) : ∃ e ∈ cache, e.1 = k ∧ e.2 = v := by
  unfold alookup at h
  cases hf : cache.find? (fun e => e.1 = k) with
  | none => rw [hf] at h; exact absurd h (by simp)
  | some e =>
    rw [hf] at h
    have hmem := List.mem_of_find?_eq_some hf
    have hpred := List.find?_some hf
    simp only [Option.some.injEq] at h
    refine ⟨e, hmem, ?_, h⟩
    exact of_decide_eq_true hpred

theorem isValid_true_some (fs : FileSys) (template : List Str) (mode : Mode)
    (path : Str)
    (h : (isValidForComparison fs template mode path).1 = true) :
    ∃ t, (isValidForComparison fs template mode path).2 = some t ∧ t ≠ [] := by
  cases hr : fsRead fs path with
  | none =>
    have hred : isValidForComparison fs template mode path = (false, none) := by
      unfold isValidForComparison
      rw [hr]
    rw [hred] at h
    exact absurd h (by simp)
  | some code =>
    have hred : isValidForComparison fs template mode path =
        (if (tokenizeToList code mode).length < MIN_TOKEN_COUNT then (false, none)
         else if template ≠ [] ∧ tokenizeToList code mode ≠ [] then
           (if (subtractTemplateTokens (tokenizeToList code mode) template).length <
               MIN_TOKEN_COUNT then (false, none)
            else (true, some (subtractTemplateTokens (tokenizeToList code mode) template)))
         else (true, some (tokenizeToList code mode))) := by
      unfold isValidForComparison
      rw [hr]
    rw [hred] at h ⊢
    by_cases h1 : (tokenizeToList code mode).length < MIN_TOKEN_COUNT
    · rw [if_pos h1] at h
      exact absurd h (by simp)
    · rw [if_neg h1] at h ⊢
      by_cases h2 : template ≠ [] ∧ tokenizeToList code mode ≠ []
      · rw [if_pos h2] at h ⊢
        by_cases h3 : (subtractTemplateTokens (tokenizeToList code mode) template).length <
            MIN_TOKEN_COUNT
        · rw [if_pos h3] at h
          exact absurd h (by simp)
        · rw [if_neg h3]
          refine ⟨_, rfl, ?_⟩
          intro hnil
          rw [hnil] at h3
          simp [MIN_TOKEN_COUNT] at h3
      · rw [if_neg h2]
        refine ⟨_, rfl, ?_⟩
        intro hnil
        rw [hnil] at h1
        simp [MIN_TOKEN_COUNT] at h1

theorem calcSimilarity_self (cache : Cache) (t : List Str)
    (hwf : CacheWF cache) (ht : t ≠ []) :
    (calculateSimilarity cache t t).1 = 100 := by
  have hcond : ¬ (t = [] ∨ t = []) := by simp [ht]
  simp only [calculateSimilarity, if_neg hcond]
  rw [sortPair_self]
  cases hl : alookup cache (joinT t, joinT t) with
  | some v =>
    show v = 100
    obtain ⟨e, hmem, hkey, hval⟩ := alookup_mem cache _ v hl
    have hv := hwf e hmem
    rw [hkey] at hv
    rcases hv with h | h <;>
      · rw [hval] at h
        rw [h, ratioQ_self]
        norm_num
  | none =>
    show ratioQ (joinT t) (joinT t) * 100 = (100 : ℚ)
    rw [ratioQ_self]
    norm_num

/-- Claim C6: as stated, self-comparison does not always yield `100.0`:
`compare_two_files` on a path that does not exist (or fails the token
gate) returns `0.0` for the self-pair as well. -/
theorem claim_C6_counterexample :
    (compareTwoFiles [] [] Mode.structural [] (chars "a.c") (chars "a.c")).1 = 0 := by
  rfl

/-- Claim C6 (amended): for every file that passes the validity gate, and
any cache whose entries record ratios of their key pairs (as every cache
built by the detector does), comparing the file against itself yields
similarity exactly `100.0`. -/
theorem claim_C6_self_similarity (fs : FileSys) (template : List Str)
    (mode : Mode) (cache : Cache) (path : Str)
    (hwf : CacheWF cache)
    (hvalid : (isValidForComparison fs template mode path).1 = true) :
    (compareTwoFiles fs template mode cache path path).1 = 100 := by
  obtain ⟨t, hsome, htne⟩ := isValid_true_some fs template mode path hvalid
  have hcond : ¬ ((isValidForComparison fs template mode path).1 = false ∨
      (isValidForComparison fs template mode path).1 = false ∨ t = [] ∨ t = []) := by
    rw [hvalid]
    simp [htne]
  simp only [compareTwoFiles]
  rw [hsome]
  show (if (isValidForComparison fs template mode path).1 = false ∨
      (isValidForComparison fs template mode path).1 = false ∨ t = [] ∨ t = []
    then ((0 : ℚ), cache) else calculateSimilarity cache t t).1 = 100
  rw [if_neg hcond]
  exact calcSimilarity_self cache t hwf htne

/-- Claim C6 witness: a concrete valid file compared against itself under
the empty cache. -/
theorem claim_C6_witness :
    CacheWF [] ∧
    (isValidForComparison [(chars "a.c", content50)] [] Mode.structural
      (chars "a.c")).1 = true ∧
    (compareTwoFiles [(chars "a.c", content50)] [] Mode.structural []
      (chars "a.c") (chars "a.c")).1 = 100 :=
  ⟨fun e he => absurd he (List.not_mem_nil e), by decide,
    claim_C6_self_similarity [(chars "a.c", content50)] [] Mode.structural []
      (chars "a.c") (fun e he => absurd he (List.not_mem_nil e)) (by decide)⟩

/-! ## Rounding, key uniqueness, and Claim C1 -/

theorem pyRound_ge (n : ℤ) (q : ℚ) (h : (n : ℚ) ≤ q) : n ≤ pyRound q := by
  unfold pyRound
  have hf : n ≤ ⌊q⌋ := Int.le_floor.mpr h
  show n ≤ (if q - (⌊q⌋ : ℚ) < 1 / 2 then ⌊q⌋
    else if 1 / 2 < q - (⌊q⌋ : ℚ) then ⌊q⌋ + 1
    else if ⌊q⌋ % 2 = 0 then ⌊q⌋ else ⌊q⌋ + 1)
  split
  · exact hf
  · split
    · omega
    · split <;> omega

theorem round2_ge (n : ℤ) (q : ℚ) (h : (n : ℚ) ≤ q) : (n : ℚ) ≤ round2 q := by
  unfold round2
  have h100 : ((n * 100 : ℤ) : ℚ) ≤ q * 100 := by push_cast; linarith
  have hp := pyRound_ge (n * 100) (q * 100) h100
  rw [le_div_iff₀ (by norm_num : (0 : ℚ) < 100)]
  calc (n : ℚ) * 100 = ((n * 100 : ℤ) : ℚ) := by push_cast; ring
    _ ≤ ((pyRound (q * 100) : ℤ) : ℚ) := by exact_mod_cast hp

theorem round2_threshold (q : ℚ) (h : SIMILARITY_THRESHOLD ≤ q) :
    SIMILARITY_THRESHOLD ≤ round2 q := by
  have := round2_ge 95 q (by
    unfold SIMILARITY_THRESHOLD at h
    exact_mod_cast h)
  unfold SIMILARITY_THRESHOLD
  exact_mod_cast this

theorem dinsert_keys (k v : Str) : ∀ (l : List (Str × Str)),
    (dinsert l k v).map Prod.fst =
      if k ∈ l.map Prod.fst then l.map Prod.fst else l.map Prod.fst ++ [k]
  | [] => by simp [dinsert]
  | (k1, v1) :: t => by
    unfold dinsert
    by_cases hk : k1 = k
    · rw [if_pos hk]
      have : k ∈ ((k1, v1) :: t).map Prod.fst := by
        simp [hk.symm]
      rw [if_pos this]
      simp
    · rw [if_neg hk]
      have hrec := dinsert_keys k v t
      by_cases hmem : k ∈ t.map Prod.fst
      · have : k ∈ ((k1, v1) :: t).map Prod.fst := by
          simp only [List.map_cons, List.mem_cons]
          exact Or.inr hmem
        rw [if_pos this]
        simp only [List.map_cons]
        rw [hrec, if_pos hmem]
      · have : ¬ k ∈ ((k1, v1) :: t).map Prod.fst := by
          simp only [List.map_cons, List.mem_cons]
          push_neg
          exact ⟨fun he => hk he.symm, hmem⟩
        rw [if_neg this]
        simp only [List.map_cons]
        rw [hrec, if_neg hmem]
        simp

theorem dinsert_keys_nodup (l : List (Str × Str)) (k v : Str)
    (h : (l.map Prod.fst).Nodup) : ((dinsert l k v).map Prod.fst).Nodup := by
  rw [dinsert_keys]
  split
  · exact h
  · rw [List.nodup_append]
    refine ⟨h, List.nodup_singleton k, ?_⟩
    intro x hx hx1
    simp only [List.mem_singleton] at hx1
    subst hx1
    exact ‹¬ _› hx

theorem collect_keys_nodup (fs : FileSys) (template : List Str) (mode : Mode)
    (dir : Str) : ∀ (listing acc : List (Str × Str)),
    (acc.map Prod.fst).Nodup →
    ((collectStudentFiles fs template mode dir acc listing).map Prod.fst).Nodup := by
  intro listing
  induction listing with
  | nil => intro acc hacc; exact hacc
  | cons e rest ih =>
    obtain ⟨name, code⟩ := e
    intro acc hacc
    unfold collectStudentFiles
    by_cases ha : endsWithAccepted name = true
    · rw [if_pos ha]
      by_cases hv : (isValidForComparison fs template mode (pjoin dir name)).1 = true
      · rw [if_pos hv]
        exact ih _ (dinsert_keys_nodup acc _ _ hacc)
      · rw [if_neg hv]
        exact ih acc hacc
    · rw [if_neg ha]
      exact ih acc hacc

theorem pairsOf_nodup : ∀ (l : List (Str × Str)), l.Nodup → (pairsOf l).Nodup
  | [], _ => List.Pairwise.nil
  | x :: xs, hnd => by
    rw [List.nodup_cons] at hnd
    obtain ⟨hx, hxs⟩ := hnd
    unfold pairsOf
    rw [List.nodup_append]
    refine ⟨?_, pairsOf_nodup xs hxs, ?_⟩
    · exact (List.nodup_map_iff_inj_on hxs).mpr
        (fun a _ b _ hab => ((Prod.mk.injEq x a x b).mp hab).2)
    · intro p hp hp2
      obtain ⟨y, _, hxy⟩ := List.mem_map.mp hp
      have h1 : p.1 = x := by rw [← hxy]
      have h2 : p.1 ∈ xs := (pairsOf_mem xs p hp2).1
      rw [h1] at h2
      exact hx h2

theorem pairLoop_sim_bound (fs : FileSys) (template : List Str) (mode : Mode)
    (qnum : Nat) :
    ∀ (pairs : List ((Str × Str) × (Str × Str))) (cache : Cache),
      ∀ c ∈ (pairLoop fs template mode qnum cache pairs).1,
        SIMILARITY_THRESHOLD ≤ c.similarity := by
  intro pairs
  induction pairs with
  | nil => intro cache c hc; simp [pairLoop] at hc
  | cons pr0 rest ih =>
    intro cache c hc
    obtain ⟨⟨s1, p1⟩, s2, p2⟩ := pr0
    unfold pairLoop at hc
    simp only at hc
    by_cases ht : SIMILARITY_THRESHOLD ≤ (compareTwoFiles fs template mode cache p1 p2).1
    · rw [if_pos ht] at hc
      rcases List.mem_cons.mp hc with h2 | h2
      · rw [h2]
        exact round2_threshold _ ht
      · exact ih _ c h2
    · rw [if_neg ht] at hc
      exact ih _ c hc

theorem pairLoop_pair (fs : FileSys) (template : List Str) (mode : Mode)
    (qnum : Nat) :
    ∀ (pairs : List ((Str × Str) × (Str × Str))) (cache : Cache)
      (fa fb : Str × Str),
      (fa, fb) ∈ pairs → pairs.Nodup →
      (∀ pr ∈ pairs, ∀ pr' ∈ pairs, pr.1.1 = pr'.1.1 → pr.2.1 = pr'.2.1 → pr = pr') →
      ∃ sim, (fa.1, fb.1, sim) ∈ (pairLoop fs template mode qnum cache pairs).2 ∧
        (SIMILARITY_THRESHOLD ≤ sim →
          ∃ c ∈ (pairLoop fs template mode qnum cache pairs).1,
            c.student1 = fa.1 ∧ c.student2 = fb.1 ∧ c.file1 = fa.2 ∧ c.file2 = fb.2 ∧
            c.similarity = round2 sim) ∧
        (sim < SIMILARITY_THRESHOLD →
          ∀ c ∈ (pairLoop fs template mode qnum cache pairs).1,
            ¬ (c.student1 = fa.1 ∧ c.student2 = fb.1)) := by
  intro pairs
  induction pairs with
  | nil => intro cache fa fb hmem; exact absurd hmem (List.not_mem_nil _)
  | cons pr0 rest ih =>
    intro cache fa fb hmem hnd huniq
    obtain ⟨⟨s1, p1⟩, s2, p2⟩ := pr0
    rw [List.nodup_cons] at hnd
    obtain ⟨hhead, hndr⟩ := hnd
    have hcons1 : (pairLoop fs template mode qnum cache (((s1, p1), (s2, p2)) :: rest)).1 =
        if SIMILARITY_THRESHOLD ≤ (compareTwoFiles fs template mode cache p1 p2).1 then
          PlagCase.mk qnum s1 s2
            (round2 (compareTwoFiles fs template mode cache p1 p2).1) p1 p2 ::
            (pairLoop fs template mode qnum
              (compareTwoFiles fs template mode cache p1 p2).2 rest).1
        else (pairLoop fs template mode qnum
          (compareTwoFiles fs template mode cache p1 p2).2 rest).1 := rfl
    have hcons2 : (pairLoop fs template mode qnum cache (((s1, p1), (s2, p2)) :: rest)).2 =
        (s1, s2, (compareTwoFiles fs template mode cache p1 p2).1) ::
          (pairLoop fs template mode qnum
            (compareTwoFiles fs template mode cache p1 p2).2 rest).2 := rfl
    rcases List.mem_cons.mp hmem with hfab | hfab
    · -- the pair is the head pair
      have hfa : fa = (s1, p1) := congrArg Prod.fst hfab
      have hfb : fb = (s2, p2) := congrArg Prod.snd hfab
      refine ⟨(compareTwoFiles fs template mode cache p1 p2).1, ?_, ?_, ?_⟩
      · rw [hcons2, hfa, hfb]
        exact List.mem_cons_self _ _
      · intro ht
        rw [hcons1, if_pos ht]
        refine ⟨PlagCase.mk qnum s1 s2
          (round2 (compareTwoFiles fs template mode cache p1 p2).1) p1 p2,
          List.mem_cons_self _ _, ?_⟩
        rw [hfa, hfb]
        exact ⟨rfl, rfl, rfl, rfl, rfl⟩
      · intro hlt c hc hcs
        rw [hcons1, if_neg (not_le.mpr hlt)] at hc
        obtain ⟨pr, hpr, he1, he2, _, _, _⟩ :=
          pairLoop_case_mem fs template mode qnum rest _ c hc
        have hp1 : pr.1.1 = s1 := by
          rw [← he1, hcs.1, hfa]
        have hp2 : pr.2.1 = s2 := by
          rw [← he2, hcs.2, hfb]
        have := huniq pr (List.mem_cons_of_mem _ hpr) ((s1, p1), (s2, p2))
          (List.mem_cons_self _ _) hp1 hp2
        rw [this] at hpr
        exact hhead hpr
    · -- the pair is in the tail
      obtain ⟨sim, htr, hpos, hneg⟩ := ih
        (compareTwoFiles fs template mode cache p1 p2).2 fa fb hfab hndr
        (fun pr h1 pr' h2 => huniq pr (List.mem_cons_of_mem _ h1) pr'
          (List.mem_cons_of_mem _ h2))
      refine ⟨sim, ?_, ?_, ?_⟩
      · rw [hcons2]
        exact List.mem_cons_of_mem _ htr
      · intro ht
        obtain ⟨c, hc, hcp⟩ := hpos ht
        rw [hcons1]
        by_cases hth : SIMILARITY_THRESHOLD ≤ (compareTwoFiles fs template mode cache p1 p2).1
        · rw [if_pos hth]
          exact ⟨c, List.mem_cons_of_mem _ hc, hcp⟩
        · rw [if_neg hth]
          exact ⟨c, hc, hcp⟩
      · intro hlt c hc hcs
        rw [hcons1] at hc
        by_cases hth : SIMILARITY_THRESHOLD ≤ (compareTwoFiles fs template mode cache p1 p2).1
        · rw [if_pos hth] at hc
          rcases List.mem_cons.mp hc with h2 | h2
          · have hp1 : ((s1, p1), (s2, p2)).1.1 = (fa, fb).1.1 := by
              show s1 = fa.1
              rw [← hcs.1, h2]
            have hp2 : ((s1, p1), (s2, p2)).2.1 = (fa, fb).2.1 := by
              show s2 = fb.1
              rw [← hcs.2, h2]
            have := huniq ((s1, p1), (s2, p2)) (List.mem_cons_self _ _)
              (fa, fb) (List.mem_cons_of_mem _ hfab) hp1 hp2
            rw [← this] at hfab
            exact hhead hfab
          · exact hneg hlt c h2 hcs
        · rw [if_neg hth] at hc
          exact hneg hlt c hc hcs

/-- Claim C1: for every pair of files the comparison loop of a question
visits (both passed the liveness gate and were collected), the pair's
computed similarity appears in the trace, a case for the pair is emitted
exactly when that similarity reaches `SIMILARITY_THRESHOLD` (a pair at
exactly the threshold is emitted, a pair strictly below is not), and the
similarity recorded in every emitted case is at least the threshold. -/
theorem claim_C1_threshold_boundary (listing : List (Str × Str)) (dir : Str)
    (template : List Str) (mode : Mode) (qnum : Nat) (fa fb : Str × Str)
    (hmem : (fa, fb) ∈ pairsOf (collectStudentFiles
      (listing.map (fun e => (pjoin dir e.1, e.2))) template mode dir [] listing))
    (hlen : 2 ≤ (collectStudentFiles
      (listing.map (fun e => (pjoin dir e.1, e.2))) template mode dir [] listing).length) :
    ∃ sim, (fa.1, fb.1, sim) ∈ (detectQuestionFull listing dir template mode qnum).2 ∧
      (SIMILARITY_THRESHOLD ≤ sim →
        ∃ c ∈ (detectQuestionFull listing dir template mode qnum).1,
          c.student1 = fa.1 ∧ c.student2 = fb.1 ∧ c.file1 = fa.2 ∧ c.file2 = fb.2 ∧
          c.similarity = round2 sim) ∧
      (sim < SIMILARITY_THRESHOLD →
        ∀ c ∈ (detectQuestionFull listing dir template mode qnum).1,
          ¬ (c.student1 = fa.1 ∧ c.student2 = fb.1)) ∧
      ∀ c ∈ (detectQuestionFull listing dir template mode qnum).1,
        SIMILARITY_THRESHOLD ≤ c.similarity := by
  have hkeys : ((collectStudentFiles (listing.map (fun e => (pjoin dir e.1, e.2)))
      template mode dir [] listing).map Prod.fst).Nodup :=
    collect_keys_nodup _ template mode dir listing [] (by simp)
  have hsfnd : (collectStudentFiles (listing.map (fun e => (pjoin dir e.1, e.2)))
      template mode dir [] listing).Nodup := List.Nodup.of_map Prod.fst hkeys
  have hinj := (List.nodup_map_iff_inj_on hsfnd).mp hkeys
  have hpnd := pairsOf_nodup _ hsfnd
  have huniq : ∀ pr ∈ pairsOf (collectStudentFiles
        (listing.map (fun e => (pjoin dir e.1, e.2))) template mode dir [] listing),
      ∀ pr' ∈ pairsOf (collectStudentFiles
        (listing.map (fun e => (pjoin dir e.1, e.2))) template mode dir [] listing),
      pr.1.1 = pr'.1.1 → pr.2.1 = pr'.2.1 → pr = pr' := by
    intro pr h1 pr' h2 e1 e2
    obtain ⟨ha1, hb1⟩ := pairsOf_mem _ pr h1
    obtain ⟨ha2, hb2⟩ := pairsOf_mem _ pr' h2
    exact Prod.ext (hinj pr.1 ha1 pr'.1 ha2 e1) (hinj pr.2 hb1 pr'.2 hb2 e2)
  have hdq : detectQuestionFull listing dir template mode qnum =
      pairLoop (listing.map (fun e => (pjoin dir e.1, e.2))) template mode qnum []
        (pairsOf (collectStudentFiles (listing.map (fun e => (pjoin dir e.1, e.2)))
          template mode dir [] listing)) := by
    show (if (collectStudentFiles (listing.map (fun e => (pjoin dir e.1, e.2)))
        template mode dir [] listing).length < 2
      then (([], []) : List PlagCase × List (Str × Str × ℚ))
      else pairLoop (listing.map (fun e => (pjoin dir e.1, e.2))) template mode qnum []
        (pairsOf (collectStudentFiles (listing.map (fun e => (pjoin dir e.1, e.2)))
          template mode dir [] listing))) = _
    rw [if_neg (by omega)]
  obtain ⟨sim, htr, hpos, hneg⟩ := pairLoop_pair _ template mode qnum
    (pairsOf (collectStudentFiles (listing.map (fun e => (pjoin dir e.1, e.2)))
      template mode dir [] listing)) [] fa fb hmem hpnd huniq
  rw [hdq]
  exact ⟨sim, htr, hpos, hneg, pairLoop_sim_bound _ template mode qnum _ []⟩

/-- Claim C1 witness: a two-file question directory; its single pair is
visited and the claim's dichotomy holds for it. -/
theorem claim_C1_witness :
    (((chars "a", chars "Q1/a.c"), (chars "b", chars "Q1/b.c")) ∈
      pairsOf (collectStudentFiles
        (([(chars "a.c", content50), (chars "b.c", content50)]).map
          (fun e => (pjoin (chars "Q1") e.1, e.2))) [] Mode.structural (chars "Q1") []
        [(chars "a.c", content50), (chars "b.c", content50)])) ∧
    (∃ sim, ((chars "a", chars "Q1/a.c").1, (chars "b", chars "Q1/b.c").1, sim) ∈
        (detectQuestionFull [(chars "a.c", content50), (chars "b.c", content50)]
          (chars "Q1") [] Mode.structural 1).2 ∧
      (SIMILARITY_THRESHOLD ≤ sim →
        ∃ c ∈ (detectQuestionFull [(chars "a.c", content50), (chars "b.c", content50)]
            (chars "Q1") [] Mode.structural 1).1,
          c.student1 = (chars "a", chars "Q1/a.c").1 ∧
          c.student2 = (chars "b", chars "Q1/b.c").1 ∧
          c.file1 = (chars "a", chars "Q1/a.c").2 ∧
          c.file2 = (chars "b", chars "Q1/b.c").2 ∧
          c.similarity = round2 sim) ∧
      (sim < SIMILARITY_THRESHOLD →
        ∀ c ∈ (detectQuestionFull [(chars "a.c", content50), (chars "b.c", content50)]
            (chars "Q1") [] Mode.structural 1).1,
          ¬ (c.student1 = (chars "a", chars "Q1/a.c").1 ∧
            c.student2 = (chars "b", chars "Q1/b.c").1)) ∧
      ∀ c ∈ (detectQuestionFull [(chars "a.c", content50), (chars "b.c", content50)]
          (chars "Q1") [] Mode.structural 1).1,
        SIMILARITY_THRESHOLD ≤ c.similarity) :=
  ⟨by decide,
    claim_C1_threshold_boundary [(chars "a.c", content50), (chars "b.c", content50)]
      (chars "Q1") [] Mode.structural 1 (chars "a", chars "Q1/a.c")
      (chars "b", chars "Q1/b.c") (by decide) (by decide)⟩

/-! ## Claim C4 : ordering of students in emitted cases -/

theorem pairsOf_pairwise (R : Str × Str → Str × Str → Prop) :
    ∀ (l : List (Str × Str)), l.Pairwise R → ∀ p ∈ pairsOf l, R p.1 p.2
  | [], _, p, hp => absurd hp (List.not_mem_nil p)
  | x :: xs, hpw, p, hp => by
    rw [List.pairwise_cons] at hpw
    obtain ⟨hx, hxs⟩ := hpw
    unfold pairsOf at hp
    rcases List.mem_append.mp hp with h | h
    · obtain ⟨y, hy, hxy⟩ := List.mem_map.mp h
      rw [← hxy]
      exact hx y hy
    · exact pairsOf_pairwise R xs hxs p h

/-- Claim C4: as stated the invariant fails: the students of a case
appear in directory-listing (dict-insertion) order, which the detector
never sorts, so a listing that presents `b.c` before `a.c` emits a case
with `student_a = "b"` and `student_b = "a"`. -/
theorem claim_C4_counterexample :
    ∃ c ∈ detectQuestion [(chars "b.c", content50), (chars "a.c", content50)]
        (chars "Q1") [] Mode.structural 1,
      c.student1 = chars "b" ∧ c.student2 = chars "a" ∧
        lexLt c.student1 c.student2 = false := by
  have hv1 : isValidForComparison
      (([(chars "b.c", content50), (chars "a.c", content50)]).map
        (fun e => (pjoin (chars "Q1") e.1, e.2))) [] Mode.structural
      (chars "Q1/b.c") = (true, some tpl50) := by decide
  have hv2 : isValidForComparison
      (([(chars "b.c", content50), (chars "a.c", content50)]).map
        (fun e => (pjoin (chars "Q1") e.1, e.2))) [] Mode.structural
      (chars "Q1/a.c") = (true, some tpl50) := by decide
  have hr : compareTwoFiles
      (([(chars "b.c", content50), (chars "a.c", content50)]).map
        (fun e => (pjoin (chars "Q1") e.1, e.2))) [] Mode.structural []
      (chars "Q1/b.c") (chars "Q1/a.c") = calculateSimilarity [] tpl50 tpl50 := by
    unfold compareTwoFiles
    rw [hv1, hv2]
    rfl
  have hr1 : (compareTwoFiles
      (([(chars "b.c", content50), (chars "a.c", content50)]).map
        (fun e => (pjoin (chars "Q1") e.1, e.2))) [] Mode.structural []
      (chars "Q1/b.c") (chars "Q1/a.c")).1 = 100 := by
    rw [hr]
    exact calcSimilarity_self [] tpl50
      (fun e he => absurd he (List.not_mem_nil e)) (by decide)
  have hsf : collectStudentFiles
      (([(chars "b.c", content50), (chars "a.c", content50)]).map
        (fun e => (pjoin (chars "Q1") e.1, e.2))) [] Mode.structural (chars "Q1") []
      [(chars "b.c", content50), (chars "a.c", content50)] =
      [(chars "b", chars "Q1/b.c"), (chars "a", chars "Q1/a.c")] := by decide
  have hdq : detectQuestion [(chars "b.c", content50), (chars "a.c", content50)]
      (chars "Q1") [] Mode.structural 1 =
      (pairLoop (([(chars "b.c", content50), (chars "a.c", content50)]).map
          (fun e => (pjoin (chars "Q1") e.1, e.2))) [] Mode.structural 1 []
        [((chars "b", chars "Q1/b.c"), (chars "a", chars "Q1/a.c"))]).1 := by
    unfold detectQuestion detectQuestionFull
    show (if (collectStudentFiles
        (([(chars "b.c", content50), (chars "a.c", content50)]).map
          (fun e => (pjoin (chars "Q1") e.1, e.2))) [] Mode.structural (chars "Q1") []
        [(chars "b.c", content50), (chars "a.c", content50)]).length < 2
      then (([], []) : List PlagCase × List (Str × Str × ℚ))
      else pairLoop (([(chars "b.c", content50), (chars "a.c", content50)]).map
          (fun e => (pjoin (chars "Q1") e.1, e.2))) [] Mode.structural 1 []
        (pairsOf (collectStudentFiles
          (([(chars "b.c", content50), (chars "a.c", content50)]).map
            (fun e => (pjoin (chars "Q1") e.1, e.2))) [] Mode.structural (chars "Q1") []
          [(chars "b.c", content50), (chars "a.c", content50)]))).1 = _
    rw [hsf]
    rfl
  rw [hdq]
  have hcons : (pairLoop (([(chars "b.c", content50), (chars "a.c", content50)]).map
      (fun e => (pjoin (chars "Q1") e.1, e.2))) [] Mode.structural 1 []
      [((chars "b", chars "Q1/b.c"), (chars "a", chars "Q1/a.c"))]).1 =
      if SIMILARITY_THRESHOLD ≤ (compareTwoFiles
          (([(chars "b.c", content50), (chars "a.c", content50)]).map
            (fun e => (pjoin (chars "Q1") e.1, e.2))) [] Mode.structural []
          (chars "Q1/b.c") (chars "Q1/a.c")).1 then
        [PlagCase.mk 1 (chars "b") (chars "a")
          (round2 (compareTwoFiles
            (([(chars "b.c", content50), (chars "a.c", content50)]).map
              (fun e => (pjoin (chars "Q1") e.1, e.2))) [] Mode.structural []
            (chars "Q1/b.c") (chars "Q1/a.c")).1)
          (chars "Q1/b.c") (chars "Q1/a.c")]
      else [] := rfl
  rw [hcons, hr1, if_pos (by norm_num [SIMILARITY_THRESHOLD])]
  refine ⟨_, List.mem_singleton.mpr rfl, rfl, rfl, by decide⟩

/-- Claim C4 (amended): the students of every emitted case follow the
order of the collected student dictionary (directory-listing order); the
detector never sorts them, so `student_a < student_b` holds exactly when
the collection order is lexicographically sorted.  Under that hypothesis
the invariant holds for every emitted case. -/
theorem claim_C4_sorted_collection (listing : List (Str × Str)) (dir : Str)
    (template : List Str) (mode : Mode) (qnum : Nat)
    (hsorted : (collectStudentFiles (listing.map (fun e => (pjoin dir e.1, e.2)))
      template mode dir [] listing).Pairwise (fun u v => lexLt u.1 v.1 = true)) :
    ∀ c ∈ detectQuestion listing dir template mode qnum,
      lexLt c.student1 c.student2 = true := by
  intro c hc
  unfold detectQuestion detectQuestionFull at hc
  simp only at hc
  by_cases hlen : (collectStudentFiles (listing.map (fun e => (pjoin dir e.1, e.2)))
      template mode dir [] listing).length < 2
  · rw [if_pos hlen] at hc
    simp at hc
  · rw [if_neg hlen] at hc
    obtain ⟨pr, hpr, he1, he2, _, _, _⟩ :=
      pairLoop_case_mem _ template mode qnum _ [] c hc
    rw [he1, he2]
    exact pairsOf_pairwise _ _ hsorted pr hpr

/-- Claim C4 witness: with the listing already in lexicographic order the
collection is sorted and the amended invariant applies. -/
theorem claim_C4_witness :
    (collectStudentFiles (([(chars "a.c", content50), (chars "b.c", content50)]).map
      (fun e => (pjoin (chars "Q1") e.1, e.2))) [] Mode.structural (chars "Q1") []
      [(chars "a.c", content50), (chars "b.c", content50)]).Pairwise
        (fun u v => lexLt u.1 v.1 = true) ∧
    ∀ c ∈ detectQuestion [(chars "a.c", content50), (chars "b.c", content50)]
        (chars "Q1") [] Mode.structural 1,
      lexLt c.student1 c.student2 = true :=
  ⟨by decide,
    claim_C4_sorted_collection [(chars "a.c", content50), (chars "b.c", content50)]
      (chars "Q1") [] Mode.structural 1 (by decide)⟩

/-! ## The mapper: ambiguous files are never assigned (Claim C5) -/

theorem prevOf_cons (prev : Option Char) (c : Char) (a : Str) :
    prevOf prev (c :: a) = prevOf (some c) a := by
  unfold prevOf
  rw [List.getLast?_cons]
  cases a.getLast? <;> rfl

theorem prevOf_none (a : Str) : prevOf none a = a.getLast? := by
  unfold prevOf
  cases a.getLast? <;> rfl

theorem searchShape_spec (shape : Option Char → Str → Bool) :
    ∀ (s : Str) (prev : Option Char), searchShape shape prev s = true →
      ∃ a b, s = a ++ b ∧ shape (prevOf prev a) b = true
  | [], prev, h => ⟨[], [], rfl, h⟩
  | c :: cs, prev, h => by
    unfold searchShape at h
    rcases Bool.or_eq_true_iff.mp h with h1 | h1
    · exact ⟨[], c :: cs, rfl, h1⟩
    · obtain ⟨a, b, hab, hsh⟩ := searchShape_spec shape cs (some c) h1
      exact ⟨c :: a, b, by rw [hab]; rfl, by rw [prevOf_cons]; exact hsh⟩

theorem nonword_nondigit (o : Option Char) (h : notWordOpt o = true) :
    ∀ c, o = some c → isDigitCh c = false := by
  intro c hc
  subst hc
  have h2 : (!wordCh c) = true := h
  cases hd : isDigitCh c with
  | false => rfl
  | true =>
    rw [digit_word c hd] at h2
    exact absurd h2 (by simp)

theorem sep_nondigit (c : Char) (h : isSep c = true) : isDigitCh c = false := by
  unfold isSep at h
  rcases Bool.or_eq_true_iff.mp h with h1 | h1 <;>
    · rw [beq_iff_eq] at h1
      subst h1
      decide

theorem sepOrStart_nondigit (o : Option Char) (h : sepOrStart o = true) :
    ∀ c, o = some c → isDigitCh c = false := by
  intro c hc
  subst hc
  exact sep_nondigit c h

theorem anchorTail_head (rest : Str) (h : anchorTail rest = true) :
    ∀ c, rest.head? = some c → isDigitCh c = false := by
  intro c hc
  cases rest with
  | nil => simp at hc
  | cons c0 r2 =>
    simp only [List.head?_cons, Option.some.injEq] at hc
    subst hc
    have h2 : (if c0 == '.' then
        ACCEPTED_EXTENSIONS.any (fun e => ciPrefixOf (lowerStr e) r2)
      else isSep c0 || c0 == '_') = true := h
    by_cases hdot : (c0 == '.') = true
    · rw [beq_iff_eq] at hdot
      subst hdot
      decide
    · rw [Bool.not_eq_true] at hdot
      rw [if_neg (by simp [hdot])] at h2
      rcases Bool.or_eq_true_iff.mp h2 with h1 | h1
      · exact sep_nondigit c0 h1
      · rw [beq_iff_eq] at h1
        subst h1
        decide

theorem digit_toLower (c : Char) (h : isDigitCh c = true) : toLowerCh c = c := by
  unfold isDigitCh at h
  rw [Bool.and_eq_true, decide_eq_true_eq, decide_eq_true_eq] at h
  unfold toLowerCh
  rw [if_neg]
  intro ⟨hA, hZ⟩
  have h9A : ('9' : Char) < 'A' := by decide
  exact absurd (lt_of_le_of_lt h.2 h9A) (not_lt.mpr hA)

theorem ciPrefix_split (kw s : Str) (h : ciPrefixOf kw s = true) :
    ∃ s1 s2, s = s1 ++ s2 ∧ s1.length = kw.length ∧ lowerStr s1 = kw := by
  unfold ciPrefixOf at h
  have hpre := List.isPrefixOf_iff_prefix.mp h
  have hlen : (lowerStr (s.take kw.length)).length = min kw.length s.length := by
    unfold lowerStr
    rw [List.length_map, List.length_take]
  have hkwlen : kw.length ≤ (lowerStr (s.take kw.length)).length :=
    List.IsPrefix.length_le hpre
  have hmin : min kw.length s.length = kw.length := by omega
  have heq : lowerStr (s.take kw.length) = kw :=
    (List.IsPrefix.eq_of_length hpre (by omega)).symm
  refine ⟨s.take kw.length, s.drop kw.length, (List.take_append_drop _ s).symm,
    ?_, heq⟩
  rw [List.length_take]
  omega

theorem lowerStr_nodigit (s1 kw : Str) (heq : lowerStr s1 = kw)
    (hkw : ∀ c ∈ kw, isDigitCh c = false) :
    ∀ c ∈ s1, isDigitCh c = false := by
  intro c hc
  cases hd : isDigitCh c with
  | false => rfl
  | true =>
    have hmem : toLowerCh c ∈ kw := by
      rw [← heq]
      exact List.mem_map_of_mem toLowerCh hc
    rw [digit_toLower c hd] at hmem
    rw [hkw c hmem] at hd
    simp at hd

theorem kwShape_run (kw : Str) (q : Nat) (prev : Option Char) (b : Str)
    (hkw : kw ≠ []) (hkwd : ∀ c ∈ kw, isDigitCh c = false)
    (h : kwShape kw q prev b = true) :
    ∃ x r y, b = x ++ r ++ y ∧ (r = [digitChar q] ∨ r = ['0', digitChar q]) ∧
      (x = [] → ∀ c, prev = some c → isDigitCh c = false) ∧
      (∀ c, x.getLast? = some c → isDigitCh c = false) ∧
      (∀ c, y.head? = some c → isDigitCh c = false) := by
  unfold kwShape at h
  rw [Bool.and_eq_true, Bool.and_eq_true] at h
  obtain ⟨⟨hprev, hpre⟩, hmatch⟩ := h
  obtain ⟨s1, s2, hsplit, hlen1, hlow⟩ := ciPrefix_split kw b hpre
  have hs1d := lowerStr_nodigit s1 kw hlow hkwd
  have hdrop : b.drop kw.length = s2 := by
    rw [hsplit, ← hlen1]
    exact List.drop_left s1 s2
  rw [hdrop] at hmatch
  cases s2 with
  | nil => simp at hmatch
  | cons d rest =>
    rw [Bool.and_eq_true, beq_iff_eq] at hmatch
    obtain ⟨hd, hrest⟩ := hmatch
    subst hd
    refine ⟨s1, [digitChar q], rest, ?_, Or.inl rfl, ?_, ?_, ?_⟩
    · rw [hsplit]
      simp
    · intro hx
      rw [hx] at hlen1
      exact absurd (List.eq_nil_of_length_eq_zero hlen1.symm) hkw
    · intro c hc
      exact hs1d c (List.mem_of_mem_getLast? hc)
    · exact nonword_nondigit _ hrest

theorem fileAnchorShape_run (kw : Str) (q : Nat) (prev : Option Char) (b : Str)
    (hkw : kw ≠ []) (hkwd : ∀ c ∈ kw, isDigitCh c = false)
    (h : fileAnchorShape kw q prev b = true) :
    ∃ x r y, b = x ++ r ++ y ∧ (r = [digitChar q] ∨ r = ['0', digitChar q]) ∧
      (x = [] → ∀ c, prev = some c → isDigitCh c = false) ∧
      (∀ c, x.getLast? = some c → isDigitCh c = false) ∧
      (∀ c, y.head? = some c → isDigitCh c = false) := by
  unfold fileAnchorShape at h
  rw [Bool.and_eq_true, Bool.and_eq_true] at h
  obtain ⟨⟨hprev, hpre⟩, hmatch⟩ := h
  obtain ⟨s1, s2, hsplit, hlen1, hlow⟩ := ciPrefix_split kw b hpre
  have hs1d := lowerStr_nodigit s1 kw hlow hkwd
  have hdrop : b.drop kw.length = s2 := by
    rw [hsplit, ← hlen1]
    exact List.drop_left s1 s2
  rw [hdrop] at hmatch
  cases s2 with
  | nil => simp at hmatch
  | cons d rest =>
    rw [Bool.and_eq_true, beq_iff_eq] at hmatch
    obtain ⟨hd, hrest⟩ := hmatch
    subst hd
    refine ⟨s1, [digitChar q], rest, ?_, Or.inl rfl, ?_, ?_, ?_⟩
    · rw [hsplit]
      simp
    · intro hx
      rw [hx] at hlen1
      exact absurd (List.eq_nil_of_length_eq_zero hlen1.symm) hkw
    · intro c hc
      exact hs1d c (List.mem_of_mem_getLast? hc)
    · exact anchorTail_head _ hrest

theorem numFileShape_run (q : Nat) (prev : Option Char) (b : Str)
    (h : numFileShape q prev b = true) :
    ∃ x r y, b = x ++ r ++ y ∧ (r = [digitChar q] ∨ r = ['0', digitChar q]) ∧
      (x = [] → ∀ c, prev = some c → isDigitCh c = false) ∧
      (∀ c, x.getLast? = some c → isDigitCh c = false) ∧
      (∀ c, y.head? = some c → isDigitCh c = false) := by
  unfold numFileShape at h
  rw [Bool.and_eq_true] at h
  obtain ⟨hsep, hor⟩ := h
  rcases Bool.or_eq_true_iff.mp hor with hz | hp
  · split at hz
    case _ d rest =>
      rw [Bool.and_eq_true, beq_iff_eq] at hz
      obtain ⟨hd, hrest⟩ := hz
      subst hd
      refine ⟨[], ['0', digitChar q], rest, rfl, Or.inr rfl, ?_, ?_, ?_⟩
      · intro _
        exact sepOrStart_nondigit prev hsep
      · intro c hc
        simp at hc
      · exact anchorTail_head _ hrest
    case _ => simp at hz
  · split at hp
    case _ d rest =>
      rw [Bool.and_eq_true, beq_iff_eq] at hp
      obtain ⟨hd, hrest⟩ := hp
      subst hd
      refine ⟨[], [digitChar q], rest, rfl, Or.inl rfl, ?_, ?_, ?_⟩
      · intro _
        exact sepOrStart_nondigit prev hsep
      · intro c hc
        simp at hc
      · exact anchorTail_head _ hrest
    case _ => simp at hp

theorem brktShape_run (l r : Char) (q : Nat) (prev : Option Char) (b : Str)
    (hl : isDigitCh l = false) (hr : isDigitCh r = false)
    (h : brktShape l r q prev b = true) :
    ∃ x rn y, b = x ++ rn ++ y ∧ (rn = [digitChar q] ∨ rn = ['0', digitChar q]) ∧
      (x = [] → ∀ c, prev = some c → isDigitCh c = false) ∧
      (∀ c, x.getLast? = some c → isDigitCh c = false) ∧
      (∀ c, y.head? = some c → isDigitCh c = false) := by
  unfold brktShape at h
  split at h
  case _ a d bb tail =>
    rw [Bool.and_eq_true, Bool.and_eq_true, beq_iff_eq, beq_iff_eq, beq_iff_eq] at h
    obtain ⟨⟨ha, hd⟩, hb⟩ := h
    refine ⟨[a], [d], bb :: tail, rfl, Or.inl (by rw [hd]), ?_, ?_, ?_⟩
    · intro hx
      simp at hx
    · intro c hc
      simp only [List.getLast?_singleton, Option.some.injEq] at hc
      rw [← hc, ha]
      exact hl
    · intro c hc
      simp only [List.head?_cons, Option.some.injEq] at hc
      rw [← hc, hb]
      exact hr
  case _ => simp at h

theorem dirShape_run (q : Nat) (prev : Option Char) (b : Str)
    (h : dirShape q prev b = true) :
    ∃ x rn y, b = x ++ rn ++ y ∧ (rn = [digitChar q] ∨ rn = ['0', digitChar q]) ∧
      (x = [] → ∀ c, prev = some c → isDigitCh c = false) ∧
      (∀ c, x.getLast? = some c → isDigitCh c = false) ∧
      (∀ c, y.head? = some c → isDigitCh c = false) := by
  unfold dirShape at h
  split at h
  case _ c rest =>
    rw [Bool.and_eq_true] at h
    obtain ⟨hsepc, hany⟩ := h
    rw [List.any_eq_true] at hany
    obtain ⟨kw, hkwmem, hkw⟩ := hany
    have hkwd : ∀ c ∈ kw, isDigitCh c = false := by
      have hall : ∀ k ∈ dirKwOptions, ∀ c ∈ k, isDigitCh c = false := by decide
      exact hall kw hkwmem
    rw [Bool.and_eq_true] at hkw
    obtain ⟨hpre, hmatch⟩ := hkw
    obtain ⟨s1, s2, hsplit, hlen1, hlow⟩ := ciPrefix_split kw rest hpre
    have hs1d := lowerStr_nodigit s1 kw hlow hkwd
    have hdrop : rest.drop kw.length = s2 := by
      rw [hsplit, ← hlen1]
      exact List.drop_left s1 s2
    rw [hdrop] at hmatch
    split at hmatch
    case _ d r2 =>
      rw [Bool.and_eq_true, beq_iff_eq] at hmatch
      obtain ⟨hd, hr2⟩ := hmatch
      refine ⟨c :: s1, [d], r2, ?_, Or.inl (by rw [hd]), ?_, ?_, ?_⟩
      · rw [hsplit]
        simp
      · intro hx
        simp at hx
      · intro c' hc'
        have := List.mem_of_mem_getLast? hc'
        rcases List.mem_cons.mp this with h2 | h2
        · rw [h2]
          exact sep_nondigit c hsepc
        · exact hs1d c' h2
      · intro c' hc'
        split at hr2
        case _ c2 t =>
          simp only [List.head?_cons, Option.some.injEq] at hc'
          rw [← hc']
          exact sep_nondigit c2 hr2
        case _ => simp at hr2
    case _ => simp at hmatch
  case _ => simp at h

theorem searchShape_run (shape : Option Char → Str → Bool) (q : Nat) (text : Str)
    (hstep : ∀ prev b, shape prev b = true →
      ∃ x r y, b = x ++ r ++ y ∧ (r = [digitChar q] ∨ r = ['0', digitChar q]) ∧
        (x = [] → ∀ c, prev = some c → isDigitCh c = false) ∧
        (∀ c, x.getLast? = some c → isDigitCh c = false) ∧
        (∀ c, y.head? = some c → isDigitCh c = false))
    (h : searchShape shape none text = true) :
    ∃ x r y, text = x ++ r ++ y ∧ (r = [digitChar q] ∨ r = ['0', digitChar q]) ∧
      (∀ c, x.getLast? = some c → isDigitCh c = false) ∧
      (∀ c, y.head? = some c → isDigitCh c = false) := by
  obtain ⟨a, b, hab, hsh⟩ := searchShape_spec shape text none h
  obtain ⟨x, r, y, hxy, hrf, hx0, hxl, hyh⟩ := hstep _ _ hsh
  refine ⟨a ++ x, r, y, ?_, hrf, ?_, hyh⟩
  · rw [hab, hxy]
    simp
  · intro c hc
    by_cases hxe : x = []
    · subst hxe
      rw [List.append_nil] at hc
      exact hx0 rfl c (by rw [prevOf_none]; exact hc)
    · rw [List.getLast?_append_of_ne_nil a hxe] at hc
      exact hxl c hc

theorem patternMatch_run (q : Nat) (text : Str) (h : patternMatch q text = true) :
    ∃ x r y, text = x ++ r ++ y ∧ (r = [digitChar q] ∨ r = ['0', digitChar q]) ∧
      (∀ c, x.getLast? = some c → isDigitCh c = false) ∧
      (∀ c, y.head? = some c → isDigitCh c = false) := by
  have hstrict : ∀ kw ∈ strictKwList, kw ≠ [] ∧ ∀ c ∈ kw, isDigitCh c = false := by
    decide
  have hanchor : ∀ kw ∈ anchorKwList, kw ≠ [] ∧ ∀ c ∈ kw, isDigitCh c = false := by
    decide
  unfold patternMatch at h
  rcases Bool.or_eq_true_iff.mp h with h | h
  · rcases Bool.or_eq_true_iff.mp h with h | h
    · rcases Bool.or_eq_true_iff.mp h with h | h
      · rcases Bool.or_eq_true_iff.mp h with h | h
        · rcases Bool.or_eq_true_iff.mp h with h | h
          · rcases Bool.or_eq_true_iff.mp h with h | h
            · rw [List.any_eq_true] at h
              obtain ⟨kw, hkwmem, hkw⟩ := h
              exact searchShape_run _ q text
                (fun prev b hb => kwShape_run kw q prev b (hstrict kw hkwmem).1
                  (hstrict kw hkwmem).2 hb) hkw
            · rw [List.any_eq_true] at h
              obtain ⟨kw, hkwmem, hkw⟩ := h
              exact searchShape_run _ q text
                (fun prev b hb => fileAnchorShape_run kw q prev b (hanchor kw hkwmem).1
                  (hanchor kw hkwmem).2 hb) hkw
          · exact searchShape_run _ q text
              (fun prev b hb => numFileShape_run q prev b hb) h
        · exact searchShape_run _ q text
            (fun prev b hb => brktShape_run '[' ']' q prev b (by decide) (by decide) hb) h
      · exact searchShape_run _ q text
          (fun prev b hb => brktShape_run '(' ')' q prev b (by decide) (by decide) hb) h
    · exact searchShape_run _ q text
        (fun prev b hb => brktShape_run '_' '_' q prev b (by decide) (by decide) hb) h
  · exact searchShape_run _ q text (fun prev b hb => dirShape_run q prev b hb) h

theorem digitRunsAux_cons (c : Char) (cs cur : Str) :
    digitRunsAux (c :: cs) cur =
      if isDigitCh c then digitRunsAux cs (c :: cur)
      else if cur = [] then digitRunsAux cs []
      else cur.reverse :: digitRunsAux cs [] := rfl

theorem digitRunsAux_nil (cur : Str) :
    digitRunsAux [] cur = if cur = [] then [] else [cur.reverse] := rfl

theorem digitRunsAux_reset : ∀ (x cur : Str) (c : Char),
    x.getLast? = some c → isDigitCh c = false →
    ∀ t, digitRunsAux (x ++ t) cur = digitRunsAux x cur ++ digitRunsAux t []
  | [], _, c, hl, _, t => by simp at hl
  | [a], cur, c, hl, hc, t => by
    simp only [List.getLast?_singleton, Option.some.injEq] at hl
    subst hl
    have hcn : ¬ (isDigitCh a = true) := by rw [hc]; simp
    simp only [List.cons_append, List.nil_append]
    rw [digitRunsAux_cons a t cur, digitRunsAux_cons a [] cur,
      if_neg hcn, if_neg hcn]
    by_cases hcur : cur = []
    · rw [if_pos hcur, if_pos hcur, digitRunsAux_nil, if_pos rfl, List.nil_append]
    · rw [if_neg hcur, if_neg hcur, digitRunsAux_nil, if_pos rfl]
      rfl
  | a :: a2 :: x_t, cur, c, hl, hc, t => by
    have hl2 : (a2 :: x_t).getLast? = some c := by
      rw [← hl]
      rfl
    simp only [List.cons_append]
    rw [digitRunsAux_cons a (a2 :: (x_t ++ t)) cur, digitRunsAux_cons a (a2 :: x_t) cur]
    by_cases ha : isDigitCh a = true
    · rw [if_pos ha, if_pos ha]
      exact digitRunsAux_reset (a2 :: x_t) (a :: cur) c hl2 hc t
    · rw [Bool.not_eq_true] at ha
      have han : ¬ (isDigitCh a = true) := by rw [ha]; simp
      rw [if_neg han, if_neg han]
      by_cases hcur : cur = []
      · rw [if_pos hcur, if_pos hcur]
        exact digitRunsAux_reset (a2 :: x_t) [] c hl2 hc t
      · rw [if_neg hcur, if_neg hcur]
        have hrec := digitRunsAux_reset (a2 :: x_t) [] c hl2 hc t
        simp only [List.cons_append] at hrec
        rw [hrec]
        rfl

theorem digitRunsAux_digits : ∀ (r y cur : Str),
    (∀ c ∈ r, isDigitCh c = true) →
    digitRunsAux (r ++ y) cur = digitRunsAux y (r.reverse ++ cur)
  | [], y, cur, _ => by simp
  | d :: r_t, y, cur, hrd => by
    simp only [List.cons_append]
    rw [digitRunsAux_cons d (r_t ++ y) cur, if_pos (hrd d (List.mem_cons_self d r_t)),
      digitRunsAux_digits r_t y (d :: cur)
        (fun c hc => hrd c (List.mem_cons_of_mem d hc))]
    congr 1
    simp

theorem digitRuns_head_run (r y : Str) (hr : r ≠ [])
    (hrd : ∀ c ∈ r, isDigitCh c = true)
    (hyh : ∀ c, y.head? = some c → isDigitCh c = false) :
    digitRunsAux (r ++ y) [] = r :: digitRunsAux y [] := by
  rw [digitRunsAux_digits r y [] hrd, List.append_nil]
  have hrrev : r.reverse ≠ [] := by
    intro h
    exact hr (by simpa using congrArg List.reverse h)
  cases y with
  | nil =>
    rw [digitRunsAux_nil, if_neg hrrev, List.reverse_reverse]
    rfl
  | cons c y_t =>
    have hc : isDigitCh c = false := hyh c rfl
    have hcn : ¬ (isDigitCh c = true) := by rw [hc]; simp
    rw [digitRunsAux_cons c y_t r.reverse, if_neg hcn, if_neg hrrev,
      List.reverse_reverse, digitRunsAux_cons c y_t [], if_neg hcn,
      if_pos rfl]

theorem digitRuns_isolated (u r : Str) (h : isolatedAt u r) : r ∈ digitRuns u := by
  obtain ⟨x, y, hu, hr, hrd, hxl, hyh⟩ := h
  subst hu
  unfold digitRuns
  rw [List.append_assoc]
  cases x with
  | nil =>
    rw [List.nil_append, digitRuns_head_run r y hr hrd hyh]
    exact List.mem_cons_self r _
  | cons a x_t =>
    obtain ⟨c, hcl⟩ : ∃ c, (a :: x_t).getLast? = some c := by
      cases hgl : (a :: x_t).getLast? with
      | some c => exact ⟨c, rfl⟩
      | none => simp at hgl
    rw [digitRunsAux_reset (a :: x_t) [] c hcl (hxl c hcl) (r ++ y),
      digitRuns_head_run r y hr hrd hyh]
    exact List.mem_append_right _ (List.mem_cons_self r _)

theorem norm_digit (c : Char) :
    isDigitCh (if c == '\\' then '/' else c) = isDigitCh c := by
  by_cases h : (c == '\\') = true
  · rw [beq_iff_eq] at h
    subst h
    decide
  · rw [Bool.not_eq_true] at h
    rw [if_neg (by simp [h])]

theorem map_digits_id : ∀ (r0 r : Str),
    r0.map (fun c => if c == '\\' then '/' else c) = r →
    (∀ c ∈ r, isDigitCh c = true) → r0 = r
  | [], r, hm, _ => by rw [← hm]; rfl
  | c0 :: t0, r, hm, hd => by
    cases r with
    | nil => simp at hm
    | cons c t =>
      simp only [List.map_cons, List.cons.injEq] at hm
      obtain ⟨hc, ht⟩ := hm
      have hceq : c0 = c := by
        by_cases hb : (c0 == '\\') = true
        · rw [if_pos hb] at hc
          have := hd c (List.mem_cons_self c t)
          rw [← hc] at this
          exact absurd this (by decide)
        · rw [Bool.not_eq_true] at hb
          rw [if_neg (by simp [hb])] at hc
          exact hc
      rw [hceq, map_digits_id t0 t ht (fun x hx => hd x (List.mem_cons_of_mem c hx))]

theorem norm_run_transfer (path x r y : Str)
    (hn : normalizePath path = x ++ r ++ y)
    (hrd : ∀ c ∈ r, isDigitCh c = true)
    (hxl : ∀ c, x.getLast? = some c → isDigitCh c = false)
    (hyh : ∀ c, y.head? = some c → isDigitCh c = false) :
    ∃ x0 y0, path = x0 ++ r ++ y0 ∧
      (∀ c, x0.getLast? = some c → isDigitCh c = false) ∧
      (∀ c, y0.head? = some c → isDigitCh c = false) := by
  unfold normalizePath at hn
  rw [List.append_assoc] at hn
  obtain ⟨x0, z0, hsplit, hx0, hz0⟩ := List.append_eq_map_iff.mp hn.symm
  obtain ⟨r0, y0, hsplit2, hr0, hy0⟩ := List.append_eq_map_iff.mp hz0.symm
  have hreq : r0 = r := map_digits_id r0 r hr0 hrd
  refine ⟨x0, y0, ?_, ?_, ?_⟩
  · rw [hsplit, hsplit2, hreq, List.append_assoc]
  · intro c hc
    have hmap : x.getLast? = some (if c == '\\' then '/' else c) := by
      rw [← hx0, List.getLast?_map, hc]
      rfl
    have := hxl _ hmap
    rw [norm_digit] at this
    exact this
  · intro c hc
    have hmap : y.head? = some (if c == '\\' then '/' else c) := by
      rw [← hy0, List.head?_map, hc]
      rfl
    have := hyh _ hmap
    rw [norm_digit] at this
    exact this

theorem head_append_nondigit (y z : Str)
    (hy : ∀ c, y.head? = some c → isDigitCh c = false)
    (hz : y = [] → ∀ c, z.head? = some c → isDigitCh c = false) :
    ∀ c, (y ++ z).head? = some c → isDigitCh c = false := by
  intro c hc
  cases y with
  | nil =>
    rw [List.nil_append] at hc
    exact hz rfl c hc
  | cons a t =>
    simp only [List.cons_append, List.head?_cons, Option.some.injEq] at hc
    exact hc ▸ hy a rfl

theorem splitSlash_sub : ∀ (s cur : Str) (p : Str), p ∈ splitSlashAux s cur →
    ∃ x y, cur.reverse ++ s = x ++ p ++ y ∧
      (∀ c, x.getLast? = some c → c = '/') ∧
      (∀ c, y.head? = some c → c = '/')
  | [], cur, p, hp => by
    unfold splitSlashAux at hp
    rw [List.mem_singleton] at hp
    subst hp
    exact ⟨[], [], by simp, fun c hc => by simp at hc, fun c hc => by simp at hc⟩
  | c0 :: cs, cur, p, hp => by
    unfold splitSlashAux at hp
    by_cases hsep : (c0 == '/') = true
    · rw [if_pos hsep] at hp
      rw [beq_iff_eq] at hsep
      subst hsep
      rcases List.mem_cons.mp hp with hp1 | hp1
      · subst hp1
        refine ⟨[], '/' :: cs, by simp, fun c hc => by simp at hc, ?_⟩
        intro c hc
        simp only [List.head?_cons, Option.some.injEq] at hc
        exact hc.symm
      · obtain ⟨x, y, hxy, hxl, hyh⟩ := splitSlash_sub cs [] p hp1
        rw [List.reverse_nil, List.nil_append] at hxy
        refine ⟨cur.reverse ++ '/' :: x, y, ?_, ?_, hyh⟩
        · rw [hxy]
          simp
        · intro c hc
          rw [List.getLast?_append_of_ne_nil cur.reverse
            (List.cons_ne_nil '/' x)] at hc
          cases hx : x with
          | nil =>
            rw [hx] at hc
            simp only [List.getLast?_singleton, Option.some.injEq] at hc
            exact hc.symm
          | cons a t =>
            rw [hx] at hc
            have hred : ('/' :: a :: t).getLast? = (a :: t).getLast? := rfl
            rw [hred] at hc
            exact hxl c (by rw [hx]; exact hc)
    · rw [if_neg (by simpa using hsep)] at hp
      obtain ⟨x, y, hxy, hxl, hyh⟩ := splitSlash_sub cs (c0 :: cur) p hp
      refine ⟨x, y, ?_, hxl, hyh⟩
      rw [← hxy]
      simp

theorem norm_to_alltext (path x r y : Str)
    (hn : normalizePath path = x ++ r ++ y) (hr : r ≠ [])
    (hrd : ∀ c ∈ r, isDigitCh c = true)
    (hxl : ∀ c, x.getLast? = some c → isDigitCh c = false)
    (hyh : ∀ c, y.head? = some c → isDigitCh c = false) :
    isolatedAt (path ++ ' ' :: basenameOf path) r := by
  obtain ⟨x0, y0, hpath, hx0, hy0⟩ := norm_run_transfer path x r y hn hrd hxl hyh
  refine ⟨x0, y0 ++ ' ' :: basenameOf path, ?_, hr, hrd, hx0, ?_⟩
  · rw [hpath]
    simp
  · refine head_append_nondigit y0 (' ' :: basenameOf path) hy0 ?_
    intro _ c hc
    simp only [List.head?_cons, Option.some.injEq] at hc
    rw [← hc]
    decide

theorem strictQMatch_isolated (q : Nat) (path : Str) (h1 : 1 ≤ q)
    (h2 : q ≤ NUM_QUESTIONS) (h : strictQMatch q path = true) :
    ∃ r, isolatedAt (path ++ ' ' :: basenameOf path) r ∧ natOfDigits r = q := by
  have h2' : q ≤ 6 := h2
  have hdq : isDigitCh (digitChar q) = true := by
    interval_cases q <;> decide
  have hrdig : ∀ r, (r = [digitChar q] ∨ r = ['0', digitChar q]) →
      (r ≠ [] ∧ ∀ c ∈ r, isDigitCh c = true) ∧ natOfDigits r = q := by
    intro r hr
    rcases hr with hr | hr <;> subst hr
    · refine ⟨⟨by simp, ?_⟩, ?_⟩
      · intro c hc
        rw [List.mem_singleton] at hc
        subst hc
        exact hdq
      · interval_cases q <;> decide
    · refine ⟨⟨by simp, ?_⟩, ?_⟩
      · intro c hc
        rcases List.mem_cons.mp hc with h3 | h3
        · subst h3
          decide
        · rw [List.mem_singleton] at h3
          subst h3
          exact hdq
      · interval_cases q <;> decide
  have h' : ((patternMatch q (basenameOf path) ||
      patternMatch q (normalizePath path)) ||
      ((splitOnSlash (normalizePath path)).dropLast.any (patternMatch q))) = true := h
  rcases Bool.or_eq_true_iff.mp h' with hAB | hC
  · rcases Bool.or_eq_true_iff.mp hAB with hA | hB
    · -- a hit on the file name, a literal suffix of the combined text
      obtain ⟨x, r, y, hname, hrf, hxl, hyh⟩ := patternMatch_run q _ hA
      obtain ⟨⟨hr, hrd⟩, hval⟩ := hrdig r hrf
      refine ⟨r, ⟨path ++ ' ' :: x, y, ?_, hr, hrd, ?_, hyh⟩, hval⟩
      · rw [hname]
        simp
      · intro c hc
        rw [List.getLast?_append_of_ne_nil path (List.cons_ne_nil ' ' x)] at hc
        cases hx : x with
        | nil =>
          rw [hx] at hc
          simp only [List.getLast?_singleton, Option.some.injEq] at hc
          rw [← hc]
          decide
        | cons a t =>
          rw [hx] at hc
          have hred : (' ' :: a :: t).getLast? = (a :: t).getLast? := rfl
          rw [hred] at hc
          exact hxl c (by rw [hx]; exact hc)
    · -- a hit on the normalized path
      obtain ⟨x, r, y, hnorm, hrf, hxl, hyh⟩ := patternMatch_run q _ hB
      obtain ⟨⟨hr, hrd⟩, hval⟩ := hrdig r hrf
      exact ⟨r, norm_to_alltext path x r y hnorm hr hrd hxl hyh, hval⟩
  · -- a hit on a directory part of the normalized path
    rw [List.any_eq_true] at hC
    obtain ⟨part, hpmem, hpm⟩ := hC
    have hpmem2 : part ∈ splitOnSlash (normalizePath path) :=
      List.dropLast_subset _ hpmem
    unfold splitOnSlash at hpmem2
    obtain ⟨x1, y1, hxy1, hx1l, hy1h⟩ :=
      splitSlash_sub (normalizePath path) [] part hpmem2
    rw [List.reverse_nil, List.nil_append] at hxy1
    obtain ⟨x, r, y, hpart, hrf, hxl, hyh⟩ := patternMatch_run q _ hpm
    obtain ⟨⟨hr, hrd⟩, hval⟩ := hrdig r hrf
    have hnorm : normalizePath path = (x1 ++ x) ++ r ++ (y ++ y1) := by
      rw [hxy1, hpart]
      simp
    refine ⟨r, norm_to_alltext path (x1 ++ x) r (y ++ y1) hnorm hr hrd ?_ ?_, hval⟩
    · intro c hc
      by_cases hxe : x = []
      · subst hxe
        rw [List.append_nil] at hc
        rw [hx1l c hc]
        decide
      · rw [List.getLast?_append_of_ne_nil x1 hxe] at hc
        exact hxl c hc
    · refine head_append_nondigit y y1 hyh ?_
      intro _ c hc
      rw [hy1h c hc]
      decide

theorem extract_mem (text r : Str) (q : Nat) (hiso : isolatedAt text r)
    (hval : natOfDigits r = q) (h1 : 1 ≤ q) (h2 : q ≤ NUM_QUESTIONS) :
    q ∈ extractAllNumbers text := by
  unfold extractAllNumbers
  rw [List.mem_filter]
  constructor
  · rw [List.mem_map]
    exact ⟨r, digitRuns_isolated text r hiso, hval⟩
  · simp only [Bool.and_eq_true, decide_eq_true_eq]
    exact ⟨h1, h2⟩

theorem length_one_eq (l : List Nat) (h : l.length = 1) (a b : Nat)
    (ha : a ∈ l) (hb : b ∈ l) : a = b := by
  cases l with
  | nil => simp at h
  | cons x t =>
    cases t with
    | nil =>
      rw [List.mem_singleton] at ha hb
      rw [ha, hb]
    | cons y t2 => simp at h

theorem mem_matchedQuestions (q : Nat) (path : Str) (h1 : 1 ≤ q)
    (h2 : q ≤ NUM_QUESTIONS) (h : strictQMatch q path = true) :
    q ∈ matchedQuestions path := by
  unfold matchedQuestions
  rw [List.mem_filter]
  exact ⟨List.mem_range'_1.mpr ⟨h1, by omega⟩, h⟩

theorem matchStrict_none_of_two (path : Str) (q1 q2 : Nat) (hne : q1 ≠ q2)
    (hm1 : q1 ∈ matchedQuestions path) (hm2 : q2 ∈ matchedQuestions path) :
    matchStrictPatterns path = none := by
  unfold matchStrictPatterns
  cases hmq : matchedQuestions path with
  | nil => rfl
  | cons x t =>
    cases t with
    | nil =>
      rw [hmq] at hm1 hm2
      rw [List.mem_singleton] at hm1 hm2
      exact absurd (hm1.trans hm2.symm) hne
    | cons y t2 => rfl

theorem addToMapping_mem : ∀ (mp : List (Nat × List (Str × ℚ))) (q : Nat)
    (x : Str × ℚ) (ql : Nat × List (Str × ℚ)), ql ∈ addToMapping mp q x →
    ∀ e ∈ ql.2, (∃ ql2 ∈ mp, e ∈ ql2.2) ∨ e = x
  | [], q, x, ql, hql => by
    unfold addToMapping at hql
    rw [List.mem_singleton] at hql
    subst hql
    intro e he
    rw [List.mem_singleton] at he
    exact Or.inr he
  | (q1, l) :: t, q, x, ql, hql => by
    unfold addToMapping at hql
    by_cases hq : q1 = q
    · rw [if_pos hq] at hql
      rcases List.mem_cons.mp hql with h | h
      · subst h
        intro e he
        rcases List.mem_append.mp he with h2 | h2
        · exact Or.inl ⟨(q1, l), List.mem_cons_self _ _, h2⟩
        · rw [List.mem_singleton] at h2
          exact Or.inr h2
      · intro e he
        exact Or.inl ⟨ql, List.mem_cons_of_mem _ h, he⟩
    · rw [if_neg hq] at hql
      rcases List.mem_cons.mp hql with h | h
      · subst h
        intro e he
        exact Or.inl ⟨(q1, l), List.mem_cons_self _ _, he⟩
      · intro e he
        rcases addToMapping_mem t q x ql h e he with h2 | h2
        · obtain ⟨ql2, hql2, he2⟩ := h2
          exact Or.inl ⟨ql2, List.mem_cons_of_mem _ hql2, he2⟩
        · exact Or.inr h2

theorem buildMapping_loop_mem (fsPaths : List Str) :
    ∀ (cFiles : List Str) (mp0 : List (Nat × List (Str × ℚ))),
    (∀ ql ∈ mp0, ∀ e ∈ ql.2, mapFileToQuestion fsPaths e.1 ≠ none) →
    ∀ ql ∈ cFiles.foldl (fun mp f =>
        match mapFileToQuestion fsPaths f with
        | some r => addToMapping mp r.1 (f, r.2)
        | none => mp) mp0,
      ∀ e ∈ ql.2, mapFileToQuestion fsPaths e.1 ≠ none := by
  intro cFiles
  induction cFiles with
  | nil => intro mp0 hmp0 ql hql; exact hmp0 ql hql
  | cons f rest ih =>
    intro mp0 hmp0 ql hql
    rw [List.foldl_cons] at hql
    cases hm : mapFileToQuestion fsPaths f with
    | some r =>
      rw [hm] at hql
      refine ih (addToMapping mp0 r.1 (f, r.2)) ?_ ql hql
      intro ql2 hql2 e he
      rcases addToMapping_mem mp0 r.1 (f, r.2) ql2 hql2 e he with h2 | h2
      · obtain ⟨ql3, hql3, he3⟩ := h2
        exact hmp0 ql3 hql3 e he3
      · rw [h2]
        show mapFileToQuestion fsPaths f ≠ none
        rw [hm]
        simp
    | none =>
      rw [hm] at hql
      exact ih mp0 hmp0 ql hql

theorem selectFold_mem : ∀ (cs : List (Str × ℚ)) (b : Str × ℚ),
    (cs.foldl (fun best x =>
      if best.2 < x.2 ∨ (x.2 = best.2 ∧ x.1.length < best.1.length) then x
      else best) b) = b ∨
    (cs.foldl (fun best x =>
      if best.2 < x.2 ∨ (x.2 = best.2 ∧ x.1.length < best.1.length) then x
      else best) b) ∈ cs
  | [], b => Or.inl rfl
  | x :: cs, b => by
    rw [List.foldl_cons]
    by_cases hc : b.2 < x.2 ∨ (x.2 = b.2 ∧ x.1.length < b.1.length)
    · rw [if_pos hc]
      rcases selectFold_mem cs x with h | h
      · rw [h]
        exact Or.inr (List.mem_cons_self _ _)
      · exact Or.inr (List.mem_cons_of_mem _ h)
    · rw [if_neg hc]
      rcases selectFold_mem cs b with h | h
      · exact Or.inl h
      · exact Or.inr (List.mem_cons_of_mem _ h)

theorem selectBest_mem : ∀ (l : List (Str × ℚ)) (p : Str), selectBest l = some p →
    ∃ e ∈ l, e.1 = p
  | [], p, h => by simp [selectBest] at h
  | c :: cs, p, h => by
    unfold selectBest at h
    simp only [Option.some.injEq] at h
    rcases selectFold_mem cs c with h2 | h2
    · rw [h2] at h
      exact ⟨c, List.mem_cons_self _ _, h⟩
    · exact ⟨_, List.mem_cons_of_mem _ h2, h⟩

theorem mapStudentFiles_ne (fsPaths cFiles : List Str) (path : Str)
    (hnone : mapFileToQuestion fsPaths path = none) :
    ∀ e ∈ mapStudentFiles fsPaths cFiles, e.2 ≠ path := by
  intro e he
  unfold mapStudentFiles at he
  rw [List.mem_filterMap] at he
  obtain ⟨ql, hql, hmap⟩ := he
  cases hsb : selectBest ql.2 with
  | none =>
    rw [hsb] at hmap
    simp at hmap
  | some p =>
    rw [hsb] at hmap
    simp only [Option.map_some', Option.some.injEq] at hmap
    obtain ⟨cand, hcmem, hc1⟩ := selectBest_mem ql.2 p hsb
    have hne := buildMapping_loop_mem fsPaths cFiles []
      (fun ql2 hql2 => absurd hql2 (List.not_mem_nil ql2)) ql hql cand hcmem
    intro hep
    rw [← hmap] at hep
    simp only at hep
    rw [hep] at hc1
    rw [hc1] at hne
    exact hne hnone

/-- Claim C5: a file whose path satisfies the strict patterns of two
distinct question numbers is assigned to no question slot:
`map_file_to_question` returns no assignment (the ambiguity also poisons
the single-number fallback, because each strict match plants its own
digit in the searched text), and consequently no entry of the final
per-student mapping ever selects that path. -/
theorem claim_C5_ambiguous_unassigned (fsPaths cFiles : List Str)
    (path : Str) (q1 q2 : Nat) (hne : q1 ≠ q2)
    (hq1a : 1 ≤ q1) (hq1b : q1 ≤ NUM_QUESTIONS)
    (hq2a : 1 ≤ q2) (hq2b : q2 ≤ NUM_QUESTIONS)
    (hm1 : strictQMatch q1 path = true) (hm2 : strictQMatch q2 path = true) :
    mapFileToQuestion fsPaths path = none ∧
      ∀ e ∈ mapStudentFiles fsPaths cFiles, e.2 ≠ path := by
  have hnone : mapFileToQuestion fsPaths path = none := by
    unfold mapFileToQuestion
    by_cases hc1 : ¬ (fsPaths.contains path = true)
    · rw [if_pos hc1]
    · rw [if_neg hc1]
      show (if ¬ (ACCEPTED_EXTENSIONS.contains (extOfLower (basenameOf path)) = true)
        then none
        else match matchStrictPatterns path with
          | some r => some r
          | none =>
            if (extractAllNumbers (path ++ ' ' :: basenameOf path)).length = 1 then
              some ((extractAllNumbers (path ++ ' ' :: basenameOf path)).headD 0, 2 / 5)
            else none) = none
      by_cases hc2 : ¬ (ACCEPTED_EXTENSIONS.contains (extOfLower (basenameOf path)) = true)
      · rw [if_pos hc2]
      · rw [if_neg hc2]
        rw [matchStrict_none_of_two path q1 q2 hne
          (mem_matchedQuestions q1 path hq1a hq1b hm1)
          (mem_matchedQuestions q2 path hq2a hq2b hm2)]
        obtain ⟨r1, hiso1, hval1⟩ := strictQMatch_isolated q1 path hq1a hq1b hm1
        obtain ⟨r2, hiso2, hval2⟩ := strictQMatch_isolated q2 path hq2a hq2b hm2
        have hq1m := extract_mem _ r1 q1 hiso1 hval1 hq1a hq1b
        have hq2m := extract_mem _ r2 q2 hiso2 hval2 hq2a hq2b
        have hlen : ¬ ((extractAllNumbers (path ++ ' ' :: basenameOf path)).length = 1) := by
          intro hlen1
          exact hne (length_one_eq _ hlen1 q1 q2 hq1m hq2m)
        rw [if_neg hlen]
  exact ⟨hnone, mapStudentFiles_ne fsPaths cFiles path hnone⟩

/-- Claim C5 witness: `q1/q2.c` strict-matches question 1 (`\bq1\b`) and
question 2 (`\bq2\b`), so it is mapped to no question and selected by no
mapping entry. -/
theorem claim_C5_witness :
    (1 : Nat) ≠ 2 ∧
    strictQMatch 1 (chars "q1/q2.c") = true ∧
    strictQMatch 2 (chars "q1/q2.c") = true ∧
    mapFileToQuestion [chars "q1/q2.c"] (chars "q1/q2.c") = none ∧
    ∀ e ∈ mapStudentFiles [chars "q1/q2.c"] [chars "q1/q2.c"],
      e.2 ≠ chars "q1/q2.c" :=
  ⟨by decide, by decide, by decide,
    (claim_C5_ambiguous_unassigned [chars "q1/q2.c"] [chars "q1/q2.c"]
      (chars "q1/q2.c") 1 2 (by decide) (by decide) (by decide) (by decide)
      (by decide) (by decide) (by decide)).1,
    (claim_C5_ambiguous_unassigned [chars "q1/q2.c"] [chars "q1/q2.c"]
      (chars "q1/q2.c") 1 2 (by decide) (by decide) (by decide) (by decide)
      (by decide) (by decide) (by decide)).2⟩
